import Mathlib

/-!
Verification of the FileGDB table/row decoding engine
(src/ogr/ogrsf_frmts/openfilegdb/filegdbtable.cpp) against its
natural-language specification.

The C++ code is shallowly embedded: byte buffers become `Nat → Nat` functions
or `List Nat` values (each entry a byte value), machine integers become `Nat`
or `Int` with explicit reduction modulo `2 ^ w` where overflow matters, and
fallible operations return `Option` or carry explicit error flags, mirroring
the `returnErrorIf` macros of the source.  IEEE-754 values (float32/float64
fields) are carried as their raw little-endian byte patterns: the source only
ever `memcpy`s them out of the row buffer, so every claim treated here is a
pure function of those bytes.
-/

namespace FileGDB

/-! ### Machine-integer helpers

`wrap64` reduces an unbounded integer to the two's-complement value of its
low 64 bits, matching what the C++ code produces when it stores an arithmetic
result into a `GIntBig` (the code is annotated
`CPL_NOSANITIZE_UNSIGNED_INT_OVERFLOW` and relies on wrap-around).
-/

def wrap64 (x : Int) : Int := (x + 2 ^ 63) % 2 ^ 64 - 2 ^ 63

def wrap32 (x : Int) : Int := (x + 2 ^ 31) % 2 ^ 32 - 2 ^ 31

def wrap16 (x : Int) : Int := (x + 2 ^ 15) % 2 ^ 16 - 2 ^ 15

/-- Modelled from the spec: the bit-test macro `TEST_BIT` lives in
`filegdbtable_priv.h`, which is not part of the provided sources; the spec
dictates "least-significant-bit-first bit tests", i.e.
`ar[bit / 8] & (1 << (bit % 8))`. -/
def testBit (bytes : List Nat) (bit : Nat) : Bool :=
  (bytes.getD (bit / 8) 0) &&& (1 <<< (bit % 8)) != 0

/-- Modelled from the spec: the little-endian fixed-width readers
(`GetUInt32` and friends) live in `filegdbtable_priv.h`, not in the provided
sources; the spec dictates "little-endian throughout".  Combines `w` bytes
starting at `off` little-endian. -/
def getUIntLE (bytes : List Nat) (off w : Nat) : Nat :=
  match w with
  | 0 => 0
  | n + 1 => bytes.getD off 0 % 256 + 256 * getUIntLE bytes (off + 1) n

def getUInt32 (bytes : List Nat) (off : Nat) : Nat := getUIntLE bytes off 4

def getInt32 (bytes : List Nat) (off : Nat) : Int := wrap32 (getUIntLE bytes off 4)

def getInt16 (bytes : List Nat) (off : Nat) : Int := wrap16 (getUIntLE bytes off 2)

def getInt64 (bytes : List Nat) (off : Nat) : Int := wrap64 (getUIntLE bytes off 8)

/-- `BufMatches buf pos l` states that the memory `buf` holds exactly the
bytes `l` starting at index `pos`. -/
def BufMatches (buf : Nat → Nat) : Nat → List Nat → Prop
  | _, [] => True
  | pos, b :: rest => buf pos = b ∧ BufMatches buf (pos + 1) rest

instance instDecBufMatches (buf : Nat → Nat) :
    (pos : Nat) → (l : List Nat) → Decidable (BufMatches buf pos l)
  | _, [] => .isTrue trivial
  | pos, b :: rest =>
    haveI := instDecBufMatches buf (pos + 1) rest
    inferInstanceAs (Decidable (buf pos = b ∧ BufMatches buf (pos + 1) rest))

/-! ### Varint primitives (`ReadVarUInt`, filegdbtable.cpp lines 142–251)

The C++ template `ReadVarUInt<OutType, ControlType>` is parameterised by the
output width (32 or 64 bits) and by whether bounds are checked against
`pabyEnd`.  `readVarUIntLoop` embeds its loop: `pos` is the cursor,
`endPos` the end pointer, `shift`/`val` the running shift and accumulator.
The `fuel` argument only makes the recursion structural: the source loop
terminates because `nShift` grows by 7 each iteration and the function
returns as soon as `nShift ≥ w`, so `w` iterations are always enough and the
fuel-exhausted branch is unreachable from `readVarUInt` below. -/

inductive VarUIntOut where
  | boundsFail : VarUIntOut
  | shiftFail (val : Nat) (pos : Nat) : VarUIntOut
  | success (val : Nat) (pos : Nat) : VarUIntOut
deriving DecidableEq, Repr

def VarUIntOut.isSuccess : VarUIntOut → Bool
  | .success _ _ => true
  | _ => false

def readVarUIntLoop (w : Nat) (chk : Bool) (buf : Nat → Nat) (endPos : Nat) :
    Nat → Nat → Nat → Nat → VarUIntOut
  | 0, _, _, _ => .boundsFail
  | fuel + 1, pos, shift, val =>
    if chk = true ∧ endPos ≤ pos then .boundsFail
    else
      let b := buf pos
      let val2 := (val ||| ((b &&& 127) <<< shift)) % 2 ^ w
      if b &&& 128 = 0 then .success val2 (pos + 1)
      else if w ≤ shift + 7 then .shiftFail val2 (pos + 1)
      else readVarUIntLoop w chk buf endPos fuel (pos + 1) (shift + 7) val2

def readVarUInt (w : Nat) (chk : Bool) (buf : Nat → Nat) (endPos pos : Nat) :
    VarUIntOut :=
  readVarUIntLoop w chk buf endPos w pos 0 0

/-- `ReadVarUInt32`: bounds-checked 32-bit decode (`ControlTypeVerboseErrorTrue`;
the `Silent` variant differs only in error reporting, not in results). -/
def readVarUInt32 (buf : Nat → Nat) (endPos pos : Nat) : VarUIntOut :=
  readVarUInt 32 true buf endPos pos

/-- `ReadVarUInt64NoCheck`: unchecked 64-bit decode (`ControlTypeNone`,
`pabyEnd` is ignored). -/
def readVarUInt64NoCheck (buf : Nat → Nat) (pos : Nat) : VarUIntOut :=
  readVarUInt 64 false buf 0 pos

/-! ### Signed delta varint (`ReadVarIntAndAddNoCheck`, lines 1469–1512)

First byte: `sign(0x40) | continue(0x80) | 6 data bits`; later bytes are
plain 7-bit continuations, i.e. exactly the loop of `ReadVarUInt` started at
shift 6.  The decoded magnitude is added to or subtracted from the running
accumulator `acc` (a `GIntBig`, hence `wrap64`).  On shift overflow the
source *assigns* the raw magnitude to the accumulator instead of adding. -/

def readVarIntAndAddNoCheck (buf : Nat → Nat) (pos : Nat) (acc : Int) :
    Int × Nat :=
  let b := buf pos
  let mag0 := b &&& 63
  let neg := b &&& 64 ≠ 0
  if b &&& 128 = 0 then
    (wrap64 (if neg then acc - mag0 else acc + mag0), pos + 1)
  else
    match readVarUIntLoop 64 false buf 0 64 (pos + 1) 6 mag0 with
    | .success mag pos2 => (wrap64 (if neg then acc - mag else acc + mag), pos2)
    | .shiftFail mag pos2 => (wrap64 mag, pos2)
    | .boundsFail => (acc, pos)

/-! ### Reference encoders

These are *specification* artefacts (the reading engine has no encoder): the
little-endian base-128 varint encoding described by the spec, used to state
the encode-then-decode claims.  `encodeVarUIntFuel` recurses on an explicit
byte budget; 10 bytes cover every value below `128 ^ 11 > 2 ^ 64`, the whole
range quantified over by the claims. -/

def encodeVarUIntFuel : Nat → Nat → List Nat
  | 0, v => [v]
  | fuel + 1, v => if v < 128 then [v] else (v % 128 + 128) :: encodeVarUIntFuel fuel (v / 128)

def encodeVarUInt (v : Nat) : List Nat := encodeVarUIntFuel 10 v

/-- Encoding of one signed delta in the `ReadVarIntAndAddNoCheck` format:
first byte holds the low 6 magnitude bits, the sign in bit 0x40 and the
continuation flag in bit 0x80; the remaining magnitude follows base-128. -/
def encodeVarIntDelta (d : Int) : List Nat :=
  let mag := d.natAbs
  let signBit : Nat := if d < 0 then 64 else 0
  if mag < 64 then [mag + signBit]
  else (mag % 64 + signBit + 128) :: encodeVarUIntFuel 9 (mag / 64)

/-! ### Arithmetic facts about bytes and varints -/

theorem and_127_eq_mod (x : Nat) : x &&& 127 = x % 128 := by
  have h : x &&& 2 ^ 7 - 1 = x % 2 ^ 7 := Nat.and_pow_two_sub_one_eq_mod x 7
  norm_num at h
  exact h

theorem and_128_eq_zero {b : Nat} (hb : b < 128) : b &&& 128 = 0 := by
  have h : b &&& 2 ^ 7 = (Nat.testBit b 7).toNat * 2 ^ 7 := Nat.and_two_pow b 7
  rw [Nat.testBit_lt_two_pow (by norm_num [hb] : b < 2 ^ 7)] at h
  norm_num at h
  exact h

theorem add_128_and_128 {a : Nat} (ha : a < 128) : (a + 128) &&& 128 = 128 := by
  have h : (a + 128) &&& 2 ^ 7 = (Nat.testBit (a + 128) 7).toNat * 2 ^ 7 :=
    Nat.and_two_pow (a + 128) 7
  have ht : Nat.testBit (a + 128) 7 = true := by
    have h2 : Nat.testBit (2 ^ 7 + a) 7 = !(Nat.testBit a 7) :=
      Nat.testBit_two_pow_add_eq a 7
    rw [Nat.testBit_lt_two_pow (by norm_num [ha] : a < 2 ^ 7)] at h2
    rw [show a + 128 = 2 ^ 7 + a by omega]
    simpa using h2
  rw [ht] at h
  norm_num at h
  exact h

theorem lor_shiftLeft_eq_add {a b n : Nat} (ha : a < 2 ^ n) :
    a ||| b <<< n = a + b * 2 ^ n := by
  rw [Nat.shiftLeft_eq, Nat.or_comm, Nat.mul_comm b (2 ^ n),
    ← Nat.mul_add_lt_is_or ha b]
  omega

theorem add_mul_pow_lt {val m shift w : Nat} (hval : val < 2 ^ shift)
    (hm : m < 2 ^ (w - shift)) (hs : shift ≤ w) :
    val + m * 2 ^ shift < 2 ^ w := by
  calc val + m * 2 ^ shift < 2 ^ shift + m * 2 ^ shift := by omega
    _ = (m + 1) * 2 ^ shift := by ring
    _ ≤ 2 ^ (w - shift) * 2 ^ shift := Nat.mul_le_mul_right _ (by omega)
    _ = 2 ^ w := by rw [← pow_add]; congr 1; omega

theorem bufMatches_append {buf : Nat → Nat} (l1 : List Nat) (pos : Nat)
    (l2 : List Nat) :
    BufMatches buf pos (l1 ++ l2) ↔
      BufMatches buf pos l1 ∧ BufMatches buf (pos + l1.length) l2 := by
  induction l1 generalizing pos with
  | nil => simp [BufMatches]
  | cons b rest ih =>
    show (buf pos = b ∧ BufMatches buf (pos + 1) (rest ++ l2)) ↔ _
    rw [ih (pos + 1)]
    simp only [BufMatches, List.length_cons]
    rw [show pos + (rest.length + 1) = pos + 1 + rest.length by omega]
    tauto

/-- One-byte case of the varint decode loop: a byte below 128 terminates the
loop and contributes at the current shift. -/
theorem readVarUIntLoop_single {w : Nat} (chk : Bool) (buf : Nat → Nat)
    (endPos m fuel pos shift val : Nat) (hm : m < 128) (hbuf : buf pos = m)
    (hval : val < 2 ^ shift) (hmw : m < 2 ^ (w - shift)) (hs : shift < w)
    (hfuel : 1 ≤ fuel) (hend : chk = true → pos + 1 ≤ endPos) :
    readVarUIntLoop w chk buf endPos fuel pos shift val =
      .success (val + m * 2 ^ shift) (pos + 1) := by
  obtain ⟨fl, rfl⟩ : ∃ fl, fuel = fl + 1 := ⟨fuel - 1, by omega⟩
  have hnb : ¬(chk = true ∧ endPos ≤ pos) := by
    rintro ⟨hc, hle⟩
    have := hend hc
    omega
  rw [readVarUIntLoop, if_neg hnb]
  simp only [hbuf]
  rw [if_pos (by rw [and_128_eq_zero hm])]
  congr 1
  rw [and_127_eq_mod, Nat.mod_eq_of_lt hm, lor_shiftLeft_eq_add hval,
    Nat.mod_eq_of_lt (add_mul_pow_lt hval hmw (Nat.le_of_lt hs))]

/-- The varint decode loop applied to the canonical base-128 encoding of `m`
(continued at shift `shift` over accumulator `val`) succeeds with value
`val + m * 2 ^ shift`, consuming exactly the encoded bytes. -/
theorem readVarUIntLoop_encode {w : Nat} (chk : Bool) (buf : Nat → Nat)
    (endPos : Nat) :
    ∀ (f m fuel pos shift val : Nat),
    m < 128 ^ (f + 1) →
    BufMatches buf pos (encodeVarUIntFuel f m) →
    val < 2 ^ shift →
    m < 2 ^ (w - shift) →
    shift < w →
    f + 1 ≤ fuel →
    (chk = true → pos + (encodeVarUIntFuel f m).length ≤ endPos) →
    readVarUIntLoop w chk buf endPos fuel pos shift val =
      .success (val + m * 2 ^ shift) (pos + (encodeVarUIntFuel f m).length)
  | 0, m, fuel, pos, shift, val => by
    intro hm hbuf hval hmw hs hfuel hend
    simp only [encodeVarUIntFuel, BufMatches, List.length_singleton] at hbuf hend ⊢
    exact readVarUIntLoop_single chk buf endPos m fuel pos shift val
      (by norm_num at hm; exact hm) hbuf.1 hval hmw hs hfuel hend
  | f + 1, m, fuel, pos, shift, val => by
    intro hm hbuf hval hmw hs hfuel hend
    by_cases hm128 : m < 128
    · simp only [encodeVarUIntFuel, if_pos hm128, BufMatches,
        List.length_singleton] at hbuf hend ⊢
      exact readVarUIntLoop_single chk buf endPos m fuel pos shift val
        hm128 hbuf.1 hval hmw hs (by omega) hend
    · simp only [encodeVarUIntFuel, if_neg hm128, BufMatches,
        List.length_cons] at hbuf hend ⊢
      obtain ⟨hb0, htail⟩ := hbuf
      obtain ⟨fl, rfl⟩ : ∃ fl, fuel = fl + 1 := ⟨fuel - 1, by omega⟩
      have hnb : ¬(chk = true ∧ endPos ≤ pos) := by
        rintro ⟨hc, hle⟩
        have := hend hc
        omega
      rw [readVarUIntLoop, if_neg hnb]
      simp only [hb0]
      have hmod : m % 128 < 128 := Nat.mod_lt m (by norm_num)
      have hcont : (m % 128 + 128) &&& 128 = 128 := add_128_and_128 hmod
      rw [if_neg (by rw [hcont]; norm_num)]
      have h7 : 7 < w - shift := by
        have hp : (2 : Nat) ^ 7 < 2 ^ (w - shift) := by
          calc (2 : Nat) ^ 7 = 128 := by norm_num
            _ ≤ m := by omega
            _ < 2 ^ (w - shift) := hmw
        exact (Nat.pow_lt_pow_iff_right (by norm_num)).mp hp
      rw [if_neg (by omega)]
      have hlow : (m % 128 + 128) &&& 127 = m % 128 := by
        rw [and_127_eq_mod, Nat.add_mod_right]
        exact Nat.mod_eq_of_lt hmod
      rw [hlow]
      have hmodw : m % 128 < 2 ^ (w - shift) := by
        calc m % 128 < 128 := hmod
          _ = 2 ^ 7 := by norm_num
          _ < 2 ^ (w - shift) := by
            exact Nat.pow_lt_pow_right (by norm_num) h7
      have hval2lt : val + m % 128 * 2 ^ shift < 2 ^ (shift + 7) := by
        refine add_mul_pow_lt hval ?_ (by omega)
        simpa using hmod
      have hval2w : val + m % 128 * 2 ^ shift < 2 ^ w :=
        add_mul_pow_lt hval hmodw (Nat.le_of_lt hs)
      rw [lor_shiftLeft_eq_add hval, Nat.mod_eq_of_lt hval2w]
      have hrec := readVarUIntLoop_encode (w := w) chk buf endPos f (m / 128) fl
        (pos + 1) (shift + 7) (val + m % 128 * 2 ^ shift)
        (by
          rw [Nat.div_lt_iff_lt_mul (by norm_num : 0 < 128)]
          calc m < 128 ^ (f + 1 + 1) := hm
            _ = 128 ^ (f + 1) * 128 := by ring)
        htail hval2lt
        (by
          rw [Nat.div_lt_iff_lt_mul (by norm_num : 0 < 128)]
          calc m < 2 ^ (w - shift) := hmw
            _ = 2 ^ (w - (shift + 7)) * 128 := by
              rw [show (128 : Nat) = 2 ^ 7 by norm_num, ← pow_add]
              congr 1
              omega)
        (by omega) (by omega)
        (fun hc => by have := hend hc; omega)
      rw [hrec]
      congr 1
      · have h1 : m % 128 + m / 128 * 128 = m := Nat.mod_add_div' m 128
        calc val + m % 128 * 2 ^ shift + m / 128 * 2 ^ (shift + 7)
            = val + (m % 128 + m / 128 * 2 ^ 7) * 2 ^ shift := by rw [pow_add]; ring
          _ = val + m * 2 ^ shift := by
              rw [show (2 : Nat) ^ 7 = 128 by norm_num, h1]
      · omega

/-- Claim C2: for every `v` in `[0, 2^64)`, encoding `v` as a little-endian
base-128 varint (continuation bit = top bit of each byte) and decoding it
with `ReadVarUInt64NoCheck` yields `v` again, consuming exactly the encoded
bytes. -/
theorem varuint_encode_then_decode (v : Nat) (hv : v < 2 ^ 64)
    (buf : Nat → Nat) (pos : Nat) (henc : BufMatches buf pos (encodeVarUInt v)) :
    readVarUInt64NoCheck buf pos = .success v (pos + (encodeVarUInt v).length) := by
  have h := readVarUIntLoop_encode (w := 64) false buf 0 10 v 64 pos 0 0
    (by
      calc v < 2 ^ 64 := hv
        _ < 128 ^ (10 + 1) := by norm_num)
    henc (by norm_num) (by simpa using hv) (by norm_num) (by norm_num)
    (by simp)
  simpa [readVarUInt64NoCheck, readVarUInt, encodeVarUInt] using h

/-- Witness for C2 at `v = 300`: the encoding is `[172, 2]` and decoding it
returns 300 after consuming 2 bytes. -/
theorem varuint_encode_then_decode_witness :
    readVarUInt64NoCheck (fun i => (encodeVarUInt 300).getD i 0) 0 =
      .success 300 (0 + (encodeVarUInt 300).length) :=
  varuint_encode_then_decode 300 (by norm_num) _ 0 (by decide)

/-- The bounds-checked decode loop only depends on the bytes strictly before
`endPos`: it never reads a byte at or past the end pointer. -/
theorem readVarUIntLoop_frame {w : Nat} (buf buf2 : Nat → Nat) (endPos : Nat) :
    ∀ (fuel pos shift val : Nat),
    (∀ i, pos ≤ i → i < endPos → buf i = buf2 i) →
    readVarUIntLoop w true buf endPos fuel pos shift val =
      readVarUIntLoop w true buf2 endPos fuel pos shift val
  | 0, _, _, _ => fun _ => rfl
  | fuel + 1, pos, shift, val => by
    intro hag
    simp only [readVarUIntLoop]
    by_cases hb : endPos ≤ pos
    · rw [if_pos ⟨trivial, hb⟩, if_pos ⟨trivial, hb⟩]
    · rw [hag pos le_rfl (by omega)]
      have hrec : ∀ v2, readVarUIntLoop w true buf endPos fuel (pos + 1)
          (shift + 7) v2 =
          readVarUIntLoop w true buf2 endPos fuel (pos + 1) (shift + 7) v2 :=
        fun v2 => readVarUIntLoop_frame buf buf2 endPos fuel (pos + 1)
          (shift + 7) v2 (fun i h1 h2 => hag i (by omega) h2)
      rw [hrec]

/-- Failure characterisation of the bounds-checked decode loop: it fails
exactly when every byte it is allowed to look at (at most
`(w - shift + 6) / 7` of them, and never one at or past `endPos`) has its
continuation bit set. -/
theorem readVarUIntLoop_fail_iff {w : Nat} (buf : Nat → Nat) (endPos : Nat) :
    ∀ (fuel pos shift val : Nat), shift < w →
    (w - shift + 6) / 7 ≤ fuel →
    ((readVarUIntLoop w true buf endPos fuel pos shift val).isSuccess = false ↔
      ∀ j, j < min (endPos - pos) ((w - shift + 6) / 7) →
        buf (pos + j) &&& 128 ≠ 0)
  | 0, pos, shift, val => by
    intro hs hfuel
    exfalso
    omega
  | fuel + 1, pos, shift, val => by
    intro hs hfuel
    simp only [readVarUIntLoop]
    by_cases hb : endPos ≤ pos
    · rw [if_pos ⟨trivial, hb⟩]
      simp only [VarUIntOut.isSuccess, eq_self_iff_true, true_iff]
      intro j hj
      exfalso
      omega
    · rw [if_neg (fun h => hb h.2)]
      by_cases hcont : buf pos &&& 128 = 0
      · rw [if_pos hcont]
        simp only [VarUIntOut.isSuccess, Bool.true_eq_false, false_iff, not_forall]
        exact ⟨0, by omega, by simpa using hcont⟩
      · rw [if_neg hcont]
        by_cases hsh : w ≤ shift + 7
        · rw [if_pos hsh]
          simp only [VarUIntOut.isSuccess, eq_self_iff_true, true_iff]
          intro j hj
          have hr : (w - shift + 6) / 7 = 1 := by omega
          rw [hr] at hj
          have hj0 : j = 0 := by omega
          subst hj0
          simpa using hcont
        · rw [if_neg hsh]
          have hrec := readVarUIntLoop_fail_iff (w := w) buf endPos fuel (pos + 1)
            (shift + 7) ((val ||| (buf pos &&& 127) <<< shift) % 2 ^ w)
            (by omega) (by omega)
          rw [hrec]
          have hr : (w - (shift + 7) + 6) / 7 = (w - shift + 6) / 7 - 1 := by omega
          rw [hr]
          constructor
          · intro h j hj
            match j with
            | 0 => simpa using hcont
            | j + 1 =>
              have hh := h j (by omega)
              rw [show pos + 1 + j = pos + (j + 1) by omega] at hh
              exact hh
          · intro h j hj
            have hh := h (j + 1) (by omega)
            rw [show pos + (j + 1) = pos + 1 + j by omega] at hh
            exact hh

/-- Claim C3: the bounds-checked 32-bit varuint decoder (`ReadVarUInt32`)
fails if and only if every byte it may inspect has its continuation bit set:
when fewer than 5 bytes remain before `endPos` this is exactly a truncated
varint (case a), and when 5 or more remain it is exactly the
shift-reaches-32 condition (case b).  Moreover the result depends only on
the bytes in `[pos, endPos)`: the decoder never reads a byte at or past the
end pointer. -/
theorem varuint32_checked_fail_iff_and_frame (buf buf2 : Nat → Nat)
    (endPos pos : Nat)
    (hagree : ∀ i, pos ≤ i → i < endPos → buf i = buf2 i) :
    ((readVarUInt32 buf endPos pos).isSuccess = false ↔
      ∀ j, j < min (endPos - pos) 5 → buf (pos + j) &&& 128 ≠ 0) ∧
    readVarUInt32 buf endPos pos = readVarUInt32 buf2 endPos pos := by
  constructor
  · have h := readVarUIntLoop_fail_iff (w := 32) buf endPos 32 pos 0 0
      (by norm_num) (by norm_num)
    simpa [readVarUInt32, readVarUInt] using h
  · exact readVarUIntLoop_frame buf buf2 endPos 32 pos 0 0 hagree

/-- Witness for C3: a 3-byte buffer of continuation bytes is a truncated
varint and fails. -/
theorem varuint32_checked_fail_iff_and_frame_witness :
    (((readVarUInt32 (fun _ => 128) 3 0).isSuccess = false ↔
      ∀ j, j < min (3 - 0) 5 → (fun _ => 128 : Nat → Nat) (0 + j) &&& 128 ≠ 0) ∧
    readVarUInt32 (fun _ => 128) 3 0 = readVarUInt32 (fun _ => 128) 3 0) :=
  varuint32_checked_fail_iff_and_frame (fun _ => 128) (fun _ => 128) 3 0
    (fun _ _ _ => rfl)

/-! ### The geometry delta-coordinate decoder (`ReadXYArray`, lines 3432–3460)

`ReadXYArray` decodes `nPoints` interleaved X,Y delta varints, accumulating
each onto the running `GIntBig` accumulators `dx`/`dy` and emitting
`acc / xyscale + origin` (the division and addition are over doubles in the
source; they are modelled over `ℚ`, which agrees with the claim's formula).
The per-iteration `returnErrorIf(pabyCur >= pabyEnd)` check becomes the
`endPos ≤ pos` test. -/

def readXYArray (xyscale xorig yorig : ℚ) (buf : Nat → Nat) (endPos : Nat) :
    Nat → Nat → Int → Int → Option (List (ℚ × ℚ) × Nat × Int × Int)
  | 0, pos, dx, dy => some ([], pos, dx, dy)
  | n + 1, pos, dx, dy =>
    if endPos ≤ pos then none
    else
      let r1 := readVarIntAndAddNoCheck buf pos dx
      let r2 := readVarIntAndAddNoCheck buf r1.2 dy
      match readXYArray xyscale xorig yorig buf endPos n r2.2 r1.1 r2.1 with
      | none => none
      | some (pts, pf, dxf, dyf) =>
        some (((r1.1 : ℚ) / xyscale + xorig, (r2.1 : ℚ) / xyscale + yorig) :: pts,
          pf, dxf, dyf)

/-- Concatenated delta encodings of a list of (dx, dy) pairs, interleaved
X,Y as `ReadXYArray` consumes them. -/
def deltaPairsEncode : List (Int × Int) → List Nat
  | [] => []
  | (dx, dy) :: t => encodeVarIntDelta dx ++ encodeVarIntDelta dy ++ deltaPairsEncode t

/-- Running accumulator values starting from `a`: `[a+d0, a+d0+d1, ...]`. -/
def partialSums (a : Int) : List Int → List Int
  | [] => []
  | d :: t => (a + d) :: partialSums (a + d) t

theorem wrap64_eq_self {x : Int} (h1 : -2 ^ 63 ≤ x) (h2 : x < 2 ^ 63) :
    wrap64 x = x := by
  rw [wrap64, Int.emod_eq_of_lt (by omega) (by omega)]
  omega

theorem byte_decompose (s c : Nat) (hs : s ≤ 1) (hc : c ≤ 1) :
    ∀ a, a < 64 →
    ((a + 64 * s + 128 * c) &&& 63 = a ∧
     (a + 64 * s + 128 * c) &&& 64 = 64 * s ∧
     (a + 64 * s + 128 * c) &&& 128 = 128 * c) := by
  interval_cases s <;> interval_cases c <;> decide

/-- Decoding the canonical encoding of a signed delta `d` adds `d` to the
running accumulator (modulo 64-bit wrap-around) and consumes exactly the
encoded bytes. -/
theorem readVarIntAndAdd_encode (buf : Nat → Nat) (pos : Nat) (acc d : Int)
    (hd : d.natAbs < 2 ^ 63)
    (henc : BufMatches buf pos (encodeVarIntDelta d)) :
    readVarIntAndAddNoCheck buf pos acc =
      (wrap64 (acc + d), pos + (encodeVarIntDelta d).length) := by
  have hloopgen : ∀ m : Nat, m < 2 ^ 63 →
      BufMatches buf (pos + 1) (encodeVarUIntFuel 9 (m / 64)) →
      readVarUIntLoop 64 false buf 0 64 (pos + 1) 6 (m % 64) =
        .success m (pos + 1 + (encodeVarUIntFuel 9 (m / 64)).length) := by
    intro m hm htail
    have h := readVarUIntLoop_encode (w := 64) false buf 0 9 (m / 64) 64
      (pos + 1) 6 (m % 64)
      (by
        calc m / 64 < 2 ^ 57 := by omega
          _ < 128 ^ (9 + 1) := by norm_num)
      htail (by omega)
      (by
        calc m / 64 < 2 ^ 57 := by omega
          _ < 2 ^ (64 - 6) := by norm_num)
      (by norm_num) (by norm_num) (by simp)
    rw [h]
    congr 1
    omega
  by_cases hneg : d < 0
  · have habs : ((d.natAbs : Int)) = -d := Int.ofNat_natAbs_of_nonpos (le_of_lt hneg)
    by_cases hlt : d.natAbs < 64
    · simp only [encodeVarIntDelta, if_pos hneg, if_pos hlt, BufMatches] at henc
      have hbd := byte_decompose 1 0 (by omega) (by omega) d.natAbs hlt
      simp only [Nat.mul_one, Nat.mul_zero, Nat.add_zero] at hbd
      simp only [readVarIntAndAddNoCheck, henc.1, hbd.1, hbd.2.1, hbd.2.2]
      norm_num [encodeVarIntDelta, if_pos hneg, if_pos hlt]
      rw [abs_of_neg hneg]
      congr 1
      omega
    · simp only [encodeVarIntDelta, if_pos hneg, if_neg hlt, BufMatches] at henc
      have hbd := byte_decompose 1 1 (by omega) (by omega) (d.natAbs % 64)
        (Nat.mod_lt _ (by norm_num))
      simp only [Nat.mul_one] at hbd
      have harg : d.natAbs % 64 + 64 + 128 = d.natAbs % 64 + 64 * 1 + 128 * 1 := by
        omega
      rw [show (d.natAbs % 64 + 64 + 128 : Nat) = d.natAbs % 64 + 64 * 1 + 128 * 1
        from harg] at henc
      simp only [Nat.mul_one] at henc
      simp only [readVarIntAndAddNoCheck, henc.1, hbd.1, hbd.2.1, hbd.2.2,
        hloopgen d.natAbs hd henc.2]
      norm_num [encodeVarIntDelta, if_pos hneg, if_neg hlt]
      constructor
      · rw [abs_of_neg hneg]
        congr 1
        omega
      · omega
  · have habs : ((d.natAbs : Int)) = d := Int.natAbs_of_nonneg (by omega)
    by_cases hlt : d.natAbs < 64
    · simp only [encodeVarIntDelta, if_neg hneg, if_pos hlt, BufMatches] at henc
      have hbd := byte_decompose 0 0 (by omega) (by omega) d.natAbs hlt
      simp only [Nat.mul_one, Nat.mul_zero, Nat.add_zero] at hbd
      simp only [Nat.add_zero] at henc
      simp only [readVarIntAndAddNoCheck, henc.1, hbd.1, hbd.2.1, hbd.2.2]
      norm_num [encodeVarIntDelta, if_neg hneg, if_pos hlt]
      rw [abs_of_nonneg (by omega : (0 : Int) ≤ d)]
    · simp only [encodeVarIntDelta, if_neg hneg, if_neg hlt, BufMatches] at henc
      have hbd := byte_decompose 0 1 (by omega) (by omega) (d.natAbs % 64)
        (Nat.mod_lt _ (by norm_num))
      simp only [Nat.mul_one, Nat.mul_zero, Nat.add_zero] at hbd
      simp only [Nat.add_zero] at henc
      simp only [readVarIntAndAddNoCheck, henc.1, hbd.1, hbd.2.1, hbd.2.2,
        hloopgen d.natAbs hd henc.2]
      norm_num [encodeVarIntDelta, if_neg hneg, if_neg hlt]
      constructor
      · rw [abs_of_nonneg (by omega : (0 : Int) ≤ d)]
      · omega

theorem deltaPairsEncode_cons (dx dy : Int) (t : List (Int × Int)) :
    deltaPairsEncode ((dx, dy) :: t) =
      encodeVarIntDelta dx ++ (encodeVarIntDelta dy ++ deltaPairsEncode t) := by
  simp [deltaPairsEncode]

/-- Generalised correctness of `ReadXYArray` on a stream of canonically
encoded deltas: starting from accumulators `a`, `b`, it emits the running
sums rescaled by `1/xyscale` and shifted by the origins, and finishes with
the final accumulators, consuming exactly the encoded bytes. -/
theorem readXYArray_spec (xyscale xorig yorig : ℚ) (buf : Nat → Nat)
    (endPos : Nat) :
    ∀ (ds : List (Int × Int)) (pos : Nat) (a b : Int),
    BufMatches buf pos (deltaPairsEncode ds) →
    pos + (deltaPairsEncode ds).length ≤ endPos →
    (∀ d ∈ ds, d.1.natAbs < 2 ^ 63 ∧ d.2.natAbs < 2 ^ 63) →
    (∀ s ∈ partialSums a (ds.map Prod.fst), -2 ^ 63 ≤ s ∧ s < 2 ^ 63) →
    (∀ s ∈ partialSums b (ds.map Prod.snd), -2 ^ 63 ≤ s ∧ s < 2 ^ 63) →
    readXYArray xyscale xorig yorig buf endPos ds.length pos a b =
      some (((partialSums a (ds.map Prod.fst)).zip
                (partialSums b (ds.map Prod.snd))).map
              (fun p => ((p.1 : ℚ) / xyscale + xorig, (p.2 : ℚ) / xyscale + yorig)),
            pos + (deltaPairsEncode ds).length,
            a + (ds.map Prod.fst).sum, b + (ds.map Prod.snd).sum)
  | [], pos, a, b => by
    intro _ _ _ _ _
    simp [readXYArray, partialSums, deltaPairsEncode]
  | (dx, dy) :: t, pos, a, b => by
    intro henc hend hmag hrx hry
    rw [deltaPairsEncode_cons] at henc hend
    rw [bufMatches_append] at henc
    obtain ⟨hencx, hency0⟩ := henc
    rw [bufMatches_append] at hency0
    obtain ⟨hency, henct⟩ := hency0
    simp only [List.length_append] at hend
    have hmagx : dx.natAbs < 2 ^ 63 := (hmag (dx, dy) (List.mem_cons_self _ _)).1
    have hmagy : dy.natAbs < 2 ^ 63 := (hmag (dx, dy) (List.mem_cons_self _ _)).2
    have hrx0 : -2 ^ 63 ≤ a + dx ∧ a + dx < 2 ^ 63 := by
      apply hrx
      simp [partialSums]
    have hry0 : -2 ^ 63 ≤ b + dy ∧ b + dy < 2 ^ 63 := by
      apply hry
      simp [partialSums]
    have hdecx := readVarIntAndAdd_encode buf pos a dx hmagx hencx
    have hdecy := readVarIntAndAdd_encode buf (pos + (encodeVarIntDelta dx).length)
      b dy hmagy hency
    rw [wrap64_eq_self hrx0.1 hrx0.2] at hdecx
    rw [wrap64_eq_self hry0.1 hry0.2] at hdecy
    have hrec := readXYArray_spec xyscale xorig yorig buf endPos t
      (pos + (encodeVarIntDelta dx).length + (encodeVarIntDelta dy).length)
      (a + dx) (b + dy)
      henct
      (by omega)
      (fun d hd => hmag d (List.mem_cons_of_mem _ hd))
      (by
        intro s hs
        apply hrx
        simp only [List.map_cons, partialSums]
        exact List.mem_cons_of_mem _ hs)
      (by
        intro s hs
        apply hry
        simp only [List.map_cons, partialSums]
        exact List.mem_cons_of_mem _ hs)
    show readXYArray xyscale xorig yorig buf endPos (t.length + 1) pos a b = _
    rw [readXYArray]
    rw [if_neg (by
      have h1 : 1 ≤ (encodeVarIntDelta dx).length := by
        rw [encodeVarIntDelta]
        split <;> simp
      omega)]
    simp only [hdecx, hdecy, hrec]
    simp only [List.map_cons, partialSums, List.zip_cons_cons, List.map,
      deltaPairsEncode_cons, List.length_append]
    refine congrArg some ?_
    refine Prod.ext rfl (Prod.ext ?_ (Prod.ext ?_ ?_)) <;> simp <;> omega

/-- The `i`-th running sum starting from `a` is `a` plus the sum of the first
`i + 1` deltas. -/
theorem partialSums_eq_range_map (l : List Int) :
    ∀ a : Int, partialSums a l =
      (List.range l.length).map (fun i => a + ((l.take (i + 1)).sum)) := by
  induction l with
  | nil => intro a; simp [partialSums]
  | cons d t ih =>
    intro a
    rw [partialSums, ih (a + d)]
    simp only [List.length_cons, List.range_succ_eq_map, List.map_cons,
      List.map_map]
    congr 1
    · simp
    · refine List.map_congr_left (fun i hi => ?_)
      simp only [Function.comp_apply, List.take_succ_cons, List.sum_cons]
      ring

/-- Claim C1: for a coordinate array decoded with the delta-varint primitive
(`ReadXYArray` over `ReadVarIntAndAddNoCheck`), if the raw varints encode the
signed deltas `d_0 .. d_{N-1}`, the `i`-th decoded ordinate equals
`(d_0 + ... + d_i) / scale + origin`.  The running accumulators are the
`dx`/`dy` arguments, here instantiated to 0 exactly as every caller in
`GetAsGeometry` does at the start of each geometry (`GIntBig dx = 0; dy = 0`,
lines 3693–3694, 3918, 4011, ..., and `dz = 0`/`dm = 0` for each Z/M array),
so each array starts from a zero accumulator. -/
theorem delta_accumulation (xyscale xorig yorig : ℚ) (buf : Nat → Nat)
    (endPos : Nat) (ds : List (Int × Int)) (pos : Nat)
    (henc : BufMatches buf pos (deltaPairsEncode ds))
    (hend : pos + (deltaPairsEncode ds).length ≤ endPos)
    (hmag : ∀ d ∈ ds, d.1.natAbs < 2 ^ 63 ∧ d.2.natAbs < 2 ^ 63)
    (hrx : ∀ s ∈ partialSums 0 (ds.map Prod.fst), -2 ^ 63 ≤ s ∧ s < 2 ^ 63)
    (hry : ∀ s ∈ partialSums 0 (ds.map Prod.snd), -2 ^ 63 ≤ s ∧ s < 2 ^ 63) :
    readXYArray xyscale xorig yorig buf endPos ds.length pos 0 0 =
      some ((List.range ds.length).map (fun i =>
          (((((ds.map Prod.fst).take (i + 1)).sum : Int) : ℚ) / xyscale + xorig,
           ((((ds.map Prod.snd).take (i + 1)).sum : Int) : ℚ) / xyscale + yorig)),
        pos + (deltaPairsEncode ds).length,
        (ds.map Prod.fst).sum, (ds.map Prod.snd).sum) := by
  rw [readXYArray_spec xyscale xorig yorig buf endPos ds pos 0 0 henc hend
    hmag hrx hry]
  refine congrArg some ?_
  refine Prod.ext ?_ (Prod.ext (by simp) (Prod.ext (by simp) (by simp)))
  simp only
  rw [partialSums_eq_range_map, partialSums_eq_range_map]
  simp only [List.length_map]
  rw [List.zip_map', List.map_map]
  refine List.map_congr_left (fun i hi => ?_)
  simp

def c1Deltas : List (Int × Int) := [(5, 3), (-2, 4)]

def c1Buf : Nat → Nat := fun i => (deltaPairsEncode c1Deltas).getD i 0

/-- Witness for C1 on the concrete delta stream `[(5, 3), (-2, 4)]` with
scale 100 and origins (10, 20). -/
theorem delta_accumulation_witness :
    readXYArray 100 10 20 c1Buf (deltaPairsEncode c1Deltas).length
        c1Deltas.length 0 0 0 =
      some ((List.range c1Deltas.length).map (fun i =>
          (((((c1Deltas.map Prod.fst).take (i + 1)).sum : Int) : ℚ) / 100 + 10,
           ((((c1Deltas.map Prod.snd).take (i + 1)).sum : Int) : ℚ) / 100 + 20)),
        0 + (deltaPairsEncode c1Deltas).length,
        (c1Deltas.map Prod.fst).sum, (c1Deltas.map Prod.snd).sum) :=
  delta_accumulation 100 10 20 c1Buf (deltaPairsEncode c1Deltas).length
    c1Deltas 0 (by decide) (by decide) (by decide) (by decide) (by decide)

/-! ### The table model (`FileGDBTable`)

The field catalog and the mutable decoding state of `FileGDBTable` are
gathered into one structure.  Files (`.gdbtable` and `.gdbtablx`) are byte
lists; `VSIFReadL` of `n` bytes at offset `o` succeeds exactly when
`o + n ≤ file.length`.

Field types: the on-disk type byte is validated against
`FGFT_DATETIME_WITH_OFFSET` (the largest value) in the descriptor parser
(lines 1065–1069) and cast from an unsigned byte, so the sentinel
`FGFT_UNDEFINED` (a negative enumerator in `filegdbtable.h`, outside the
provided sources) can never reach `m_apoFields`; it is therefore omitted.

Values: scalar integers are decoded to `Int` via the little-endian readers;
IEEE-754 and date values are carried as their raw byte patterns
(`GetFloat64`/`FileGDBDoubleDateToOGRDate` are pure functions of those
bytes); strings, binaries and GUIDs are carried as the byte slices the
source points the caller at. -/

inductive FGFieldType where
  | objectid | int16 | int32 | float32 | float64 | string | datetime
  | geometry | binary | raster | guid | globalid | xml | int64 | date
  | time | datetimeWithOffset
deriving DecidableEq, Repr

inductive RasterType where
  | managed | external | other
deriving DecidableEq, Repr

structure FGField where
  eType : FGFieldType
  nullable : Bool
  rasterType : RasterType := .managed
deriving DecidableEq, Repr

instance : Inhabited FGField := ⟨⟨.objectid, false, .managed⟩⟩

inductive FGValue where
  | intVal (v : Int)
  | realBits (bytes : List Nat)
  | strBytes (bytes : List Nat)
  | binBytes (bytes : List Nat)
  | guidBytes (bytes : List Nat)
  | dtOffsetBits (bytes : List Nat)
deriving DecidableEq, Repr

structure Tbl where
  -- immutable catalog / files
  fields : List FGField
  nullableSizeBytes : Nat
  stringsAreUTF8 : Bool
  totalRecordCount : Int
  validRecordCount : Int
  headerBufferMaxSize : Nat
  hasTablX : Bool
  tablxOffsetSize : Nat
  tablxBlockMap : List Nat
  tablxFile : List Nat
  mainFile : List Nat
  featureOffsets : List Nat
  update : Bool
  -- mutable decoder state
  fileSize : Nat
  curRow : Int
  isDeleted : Bool
  lastCol : Int
  iterPos : Nat
  accNullable : Nat
  chSaved : Int
  bError : Bool
  buffer : List Nat
  rowBlobLength : Nat
  rowBufferMaxSize : Nat
  countBlocksBeforeIdx : Nat
  countBlocksBeforeVal : Nat
  dirtyHeader : Bool
  dirtyIndices : Bool
  hasWarnedHeaderRepair : Bool
deriving DecidableEq, Repr

def bufFn (l : List Nat) : Nat → Nat := fun i => l.getD i 0

/-! ### Field skipping (`GetFieldValue` loop over previous fields,
lines 2016–2105)

For each field before the requested column: consume its nullable bit (if
nullable, and skip it entirely when the bit is set), compute its encoded
length (a varint prefix for variable-length types, a fixed size otherwise),
check it against the remaining blob bytes, and advance.  Returns
`(ok, iterPos, accNullable)`; on failure the source sets `m_bError` and the
partially advanced positions remain, which the model reproduces. -/

def skipVarLen (buffer : List Nat) (endPos ip acc : Nat) : Bool × Nat × Nat :=
  match readVarUInt32 (bufFn buffer) endPos ip with
  | .success len ip2 =>
    if endPos - ip2 < len then (false, ip2, acc) else (true, ip2 + len, acc)
  | .shiftFail _ ip2 => (false, ip2, acc)
  | .boundsFail => (false, ip, acc)

def skipFixed (size : Nat) (_buffer : List Nat) (endPos ip acc : Nat) :
    Bool × Nat × Nat :=
  if endPos - ip < size then (false, ip, acc) else (true, ip + size, acc)

def skipField (buffer : List Nat) (endPos : Nat) (f : FGField) (ip acc : Nat) :
    Bool × Nat × Nat :=
  if f.nullable ∧ testBit buffer acc then (true, ip, acc + 1)
  else
    let acc2 := if f.nullable then acc + 1 else acc
    match f.eType with
    | .objectid => (true, ip, acc2)
    | .string | .xml | .geometry | .binary => skipVarLen buffer endPos ip acc2
    | .raster =>
      match f.rasterType with
      | .managed => skipFixed 4 buffer endPos ip acc2
      | _ => skipVarLen buffer endPos ip acc2
    | .int16 => skipFixed 2 buffer endPos ip acc2
    | .int32 => skipFixed 4 buffer endPos ip acc2
    | .float32 => skipFixed 4 buffer endPos ip acc2
    | .float64 => skipFixed 8 buffer endPos ip acc2
    | .datetime | .date | .time => skipFixed 8 buffer endPos ip acc2
    | .guid | .globalid => skipFixed 16 buffer endPos ip acc2
    | .int64 => skipFixed 8 buffer endPos ip acc2
    | .datetimeWithOffset => skipFixed 10 buffer endPos ip acc2

def skipFields (buffer : List Nat) (endPos : Nat) :
    List FGField → Nat → Nat → Bool × Nat × Nat
  | [], ip, acc => (true, ip, acc)
  | f :: rest, ip, acc =>
    if (skipField buffer endPos f ip acc).1 then
      skipFields buffer endPos rest (skipField buffer endPos f ip acc).2.1
        (skipField buffer endPos f ip acc).2.2
    else skipField buffer endPos f ip acc

/-! ### Value decoding (`GetFieldValue` switch, lines 2109–2462) -/

structure DecodeOut where
  res : Option FGValue
  ip : Nat
  acc : Nat
  chSaved : Int
  buffer : List Nat
  err : Bool
deriving DecidableEq, Repr

/-- Decode the value of field `f` at `ip`/`acc`, mirroring the per-type
switch of `GetFieldValue` after `m_nLastCol = iCol`: nullable-bit test,
bounds checks, advancement, and the zero-copy null-termination trick
(`m_nChSaved` + writing a 0 byte after string/binary payloads). -/
def decodeField (utf8 : Bool) (buffer : List Nat) (endPos : Nat) (f : FGField)
    (ip acc : Nat) : DecodeOut :=
  if f.nullable ∧ testBit buffer acc then ⟨none, ip, acc + 1, -1, buffer, false⟩
  else
    let acc2 := if f.nullable then acc + 1 else acc
    match f.eType with
    | .objectid => ⟨none, ip, acc2, -1, buffer, false⟩
    | .string | .xml =>
      match readVarUInt32 (bufFn buffer) endPos ip with
      | .success len ip2 =>
        if endPos - ip2 < len then ⟨none, ip2, acc2, -1, buffer, true⟩
        else if utf8 ∨ f.eType ≠ .string then
          ⟨some (.strBytes ((buffer.drop ip2).take len)), ip2 + len, acc2,
            (buffer.getD (ip2 + len) 0 : Int), buffer.set (ip2 + len) 0, false⟩
        else
          ⟨some (.strBytes ((buffer.drop ip2).take (2 * (len / 2)))),
            ip2 + len, acc2, -1, buffer, false⟩
      | .shiftFail _ ip2 => ⟨none, ip2, acc2, -1, buffer, true⟩
      | .boundsFail => ⟨none, ip, acc2, -1, buffer, true⟩
    | .int16 =>
      if endPos < ip + 2 then ⟨none, ip, acc2, -1, buffer, true⟩
      else ⟨some (.intVal (getInt16 buffer ip)), ip + 2, acc2, -1, buffer, false⟩
    | .int32 =>
      if endPos < ip + 4 then ⟨none, ip, acc2, -1, buffer, true⟩
      else ⟨some (.intVal (getInt32 buffer ip)), ip + 4, acc2, -1, buffer, false⟩
    | .int64 =>
      if endPos < ip + 8 then ⟨none, ip, acc2, -1, buffer, true⟩
      else ⟨some (.intVal (getInt64 buffer ip)), ip + 8, acc2, -1, buffer, false⟩
    | .float32 =>
      if endPos < ip + 4 then ⟨none, ip, acc2, -1, buffer, true⟩
      else ⟨some (.realBits ((buffer.drop ip).take 4)), ip + 4, acc2, -1,
        buffer, false⟩
    | .float64 =>
      if endPos < ip + 8 then ⟨none, ip, acc2, -1, buffer, true⟩
      else ⟨some (.realBits ((buffer.drop ip).take 8)), ip + 8, acc2, -1,
        buffer, false⟩
    | .datetime | .date | .time =>
      if endPos < ip + 8 then ⟨none, ip, acc2, -1, buffer, true⟩
      else ⟨some (.realBits ((buffer.drop ip).take 8)), ip + 8, acc2, -1,
        buffer, false⟩
    | .datetimeWithOffset =>
      if endPos < ip + 10 then ⟨none, ip, acc2, -1, buffer, true⟩
      else ⟨some (.dtOffsetBits ((buffer.drop ip).take 10)), ip + 10, acc2, -1,
        buffer, false⟩
    | .geometry | .binary =>
      match readVarUInt32 (bufFn buffer) endPos ip with
      | .success len ip2 =>
        if endPos - ip2 < len then ⟨none, ip2, acc2, -1, buffer, true⟩
        else
          ⟨some (.binBytes ((buffer.drop ip2).take len)), ip2 + len, acc2,
            (buffer.getD (ip2 + len) 0 : Int), buffer.set (ip2 + len) 0, false⟩
      | .shiftFail _ ip2 => ⟨none, ip2, acc2, -1, buffer, true⟩
      | .boundsFail => ⟨none, ip, acc2, -1, buffer, true⟩
    | .raster =>
      match f.rasterType with
      | .managed =>
        if endPos < ip + 4 then ⟨none, ip, acc2, -1, buffer, true⟩
        else ⟨some (.intVal (getInt32 buffer ip)), ip + 4, acc2, -1, buffer, false⟩
      | .external =>
        match readVarUInt32 (bufFn buffer) endPos ip with
        | .success len ip2 =>
          if endPos - ip2 < len then ⟨none, ip2, acc2, -1, buffer, true⟩
          else
            ⟨some (.strBytes ((buffer.drop ip2).take (2 * (len / 2)))),
              ip2 + len, acc2, -1, buffer, false⟩
        | .shiftFail _ ip2 => ⟨none, ip2, acc2, -1, buffer, true⟩
        | .boundsFail => ⟨none, ip, acc2, -1, buffer, true⟩
      | .other =>
        match readVarUInt32 (bufFn buffer) endPos ip with
        | .success len ip2 =>
          if endPos - ip2 < len then ⟨none, ip2, acc2, -1, buffer, true⟩
          else
            ⟨some (.binBytes ((buffer.drop ip2).take len)), ip2 + len, acc2,
              (buffer.getD (ip2 + len) 0 : Int), buffer.set (ip2 + len) 0, false⟩
        | .shiftFail _ ip2 => ⟨none, ip2, acc2, -1, buffer, true⟩
        | .boundsFail => ⟨none, ip, acc2, -1, buffer, true⟩
    | .guid | .globalid =>
      if endPos < ip + 16 then ⟨none, ip, acc2, -1, buffer, true⟩
      else ⟨some (.guidBytes ((buffer.drop ip).take 16)), ip + 16, acc2, -1,
        buffer, false⟩

/-- The column-walking core of `GetFieldValue`: skip the fields between the
furthest decoded column and the requested one, then decode the requested
field.  Factored out of `getFieldValue` below so that the cursor invariant
can be stated about it directly. -/
def getFieldValueCore (t2 : Tbl) (iCol : Nat) : Option FGValue × Tbl :=
  let start := (t2.lastCol + 1).toNat
  let skipped := skipFields t2.buffer t2.rowBlobLength
    ((t2.fields.drop start).take (iCol - start)) t2.iterPos t2.accNullable
  let skipIp := skipped.2.1
  let skipAcc := skipped.2.2
  if skipped.1 = false then
    (none,
      { t2 with
        bError := true, iterPos := skipIp, accNullable := skipAcc })
  else
    let f := t2.fields.getD iCol default
    let r := decodeField t2.stringsAreUTF8 t2.buffer t2.rowBlobLength f
      skipIp skipAcc
    (r.res,
      { t2 with
        lastCol := (iCol : Int), iterPos := r.ip, accNullable := r.acc,
        chSaved := r.chSaved, buffer := r.buffer, bError := r.err })

/-- `FileGDBTable::GetFieldValue` (lines 1992–2472): early error returns,
restore of the saved null-terminated byte, rewind to column 0 for backward
access, then the column walk (`getFieldValueCore`). -/
def getFieldValue (t : Tbl) (iCol : Nat) : Option FGValue × Tbl :=
  if t.curRow < 0 then (none, t)
  else if t.fields.length ≤ iCol then (none, t)
  else if t.bError then (none, t)
  else
    let t1 := if 0 ≤ t.chSaved then
        { t with buffer := t.buffer.set t.iterPos t.chSaved.toNat, chSaved := -1 }
      else t
    let t2 := if (iCol : Int) ≤ t1.lastCol then
        { t1 with lastCol := -1, iterPos := t1.nullableSizeBytes, accNullable := 0 }
      else t1
    getFieldValueCore t2 iCol

/-! ### Offset resolution (`GetOffsetInTableForRow`, lines 1518–1607)

`ReadFeatureOffset` (lines 1601–1607) `memcpy`s `m_nTablxOffsetSize` bytes
little-endian into a `uint64`.  `countBitsRange bm lo k` counts the set bits
in block positions `[lo, lo + k)`, mirroring the
`for (i = ...; i < iBlock; i++) nCountBlocksBefore += TEST_BIT(...)` loops. -/

def readFeatureOffset (bytes : List Nat) (off w : Nat) : Nat :=
  getUIntLE bytes off w

def countBitsRange (bm : List Nat) (lo : Nat) : Nat → Nat
  | 0 => 0
  | k + 1 => countBitsRange bm lo k + (if testBit bm (lo + k) then 1 else 0)

/-- Read one offset-index entry of `m_nTablxOffsetSize` bytes at `offX` of
the `.gdbtablx` file; a short read sets `m_bError` and yields offset 0, a
successful read clears `m_bError` (`m_bError = VSIFReadL(...) != 1`). -/
def readTablxEntry (t : Tbl) (offX : Nat) : Nat × Tbl :=
  if t.tablxFile.length < offX + t.tablxOffsetSize then
    (0, { t with bError := true })
  else
    (readFeatureOffset t.tablxFile offX t.tablxOffsetSize,
      { t with bError := false })

def getOffsetInTableForRow (t0 : Tbl) (iRow : Int) : Nat × Tbl :=
  if iRow < 0 ∨ t0.totalRecordCount ≤ iRow then (0, t0)
  else
    let t := { t0 with isDeleted := false }
    if t.hasTablX = false then
      let v := t.featureOffsets.getD iRow.toNat 0
      (v % 2 ^ 63, { t with isDeleted := Nat.testBit v 63 })
    else if t.tablxBlockMap ≠ [] then
      let iBlock := iRow.toNat / 1024
      if testBit t.tablxBlockMap iBlock = false then (0, t)
      else
        let countBefore :=
          if t.countBlocksBeforeIdx ≤ iBlock then
            t.countBlocksBeforeVal +
              countBitsRange t.tablxBlockMap t.countBlocksBeforeIdx
                (iBlock - t.countBlocksBeforeIdx)
          else countBitsRange t.tablxBlockMap 0 iBlock
        let t2 :=
          { t with
            countBlocksBeforeIdx := iBlock, countBlocksBeforeVal := countBefore }
        let corrected := 1024 * countBefore + iRow.toNat % 1024
        readTablxEntry t2 (16 + t2.tablxOffsetSize * corrected)
    else
      readTablxEntry t (16 + t.tablxOffsetSize * iRow.toNat)

/-! ### `SelectRow` (lines 1654–1830) -/

def intMaxMinusSlack : Nat := 2 ^ 31 - 1 - 4

/-- The header-size reconciliation block of `SelectRow`
(lines 1691–1768): a row longer than the header's maximum-row-size hint is
either a hard error (config
`OGR_OPENFILEGDB_ERROR_ON_INCONSISTENT_BUFFER_MAX_SIZE`), or a warning plus
self-healing bookkeeping, after which the hint is bumped to the row length.
Returns `none` for the hard error. -/
def selectRowHeaderHint (cfgErr : Bool) (t : Tbl) (len : Nat) : Option Tbl :=
  if t.headerBufferMaxSize < len then
    if cfgErr then none
    else if t.update then
      if t.hasWarnedHeaderRepair = false then
        some
          { t with
            hasWarnedHeaderRepair := true, dirtyHeader := true,
            dirtyIndices := true, fileSize := t.mainFile.length,
            headerBufferMaxSize := len }
      else some { t with headerBufferMaxSize := len }
    else
      some
        { t with
          hasWarnedHeaderRepair := true, headerBufferMaxSize := len }
  else some t

/-- The suspicious-length file-size check of `SelectRow` (lines 1770–1792).
On failure the lazily computed `m_nFileSize` keeps its updated value. -/
def selectRowSizeCheck (t : Tbl) (off len : Nat) : Bool × Tbl :=
  if t.rowBufferMaxSize < len then
    if 100 * 1024 * 1024 < len then
      let t1 := if t.fileSize = 0 then { t with fileSize := t.mainFile.length }
        else t
      if t1.fileSize < off + 4 + len then (false, t1)
      else (true, { t1 with rowBufferMaxSize := len })
    else (true, { t with rowBufferMaxSize := len })
  else (true, t)

/-- Grow the reusable row buffer to `len + 4` bytes if needed, fill its first
`len` bytes from the main file at `off + 4`, and zero the 4 guard bytes
(`ZEROES_AFTER_END_OF_BUFFER`); bytes beyond `len + 4` of a previously
grown buffer keep their old content. -/
def fillRowBuffer (t : Tbl) (off len : Nat) : Tbl :=
  let grown := if t.buffer.length < len + 4 then
      t.buffer ++ List.replicate (len + 4 - t.buffer.length) 0
    else t.buffer
  { t with
    buffer := ((t.mainFile.drop (off + 4)).take len) ++ [0, 0, 0, 0] ++
      grown.drop (len + 4) }

def selectRowOk (t : Tbl) (iRow : Int) : Bool × Tbl :=
  (true,
    { t with
      curRow := iRow, lastCol := -1, iterPos := t.nullableSizeBytes,
      accNullable := 0, bError := false, chSaved := -1 })

def selectRow (cfgErr : Bool) (t : Tbl) (iRow : Int) : Bool × Tbl :=
  if iRow < 0 ∨ t.totalRecordCount ≤ iRow then (false, { t with curRow := -1 })
  else if t.curRow = iRow then (true, t)
  else
    let r0 := getOffsetInTableForRow t iRow
    let off := r0.1
    let t1 := r0.2
    if off = 0 then (false, { t1 with curRow := -1 })
    else if t1.mainFile.length < off + 4 then (false, { t1 with curRow := -1 })
    else
      let len0 := getUInt32 t1.mainFile off
      let len := if t1.isDeleted then (2 ^ 32 - len0) % 2 ^ 32 else len0
      let t2 := { t1 with rowBlobLength := len }
      if 0 < len then
        if len < t2.nullableSizeBytes ∨ intMaxMinusSlack < len then
          (false, { t2 with curRow := -1 })
        else
          match selectRowHeaderHint cfgErr t2 len with
          | none => (false, { t2 with curRow := -1 })
          | some t3 =>
            let rc := selectRowSizeCheck t3 off len
            if rc.1 = false then (false, { rc.2 with curRow := -1 })
            else
              let t4 := rc.2
              if t4.mainFile.length < off + 4 + len then
                (false, { t4 with curRow := -1 })
              else selectRowOk (fillRowBuffer t4 off len) iRow
      else selectRowOk t2 iRow

/-! ### Record-count reconciliation at open time (`Open`, lines 918–954)

Reached when the `.gdbtablx` file is present.  `useTbl` is the
`OPENFILEGDB_USE_GDBTABLE_RECORD_COUNT` configuration toggle.  Note the
adjustment only fires when the header's valid count *exceeds* the index
total, and the `useTbl` branch only emits a `CPLDebug` message, not a
warning. -/

def openReconcileRecordCounts (useTbl : Bool) (total valid : Int) :
    Int × Int × Bool :=
  if total < valid then
    if useTbl then (valid, valid, false)
    else (total, total, true)
  else (total, valid, false)

/-! ### Recovery-scan count reconciliation (`GuessFeatureLocations`,
lines 603–617)

`total` is the number of scanned candidate offsets
(`m_anFeatureOffsets.size()`), `invalid` the number of deleted records
dropped as offset-0 entries (`nInvalidRecords`), `valid` the header's
declared valid-record count and `hasDeletedListed` the
`OPENFILEGDB_REPORT_DELETED_FEATURES` mode flag
(`m_bHasDeletedFeaturesListed`).  Returns the new valid-record count and
whether the warning was emitted. -/

def guessReconcileValidCount (total invalid valid : Int)
    (hasDeletedListed : Bool) : Int × Bool :=
  if valid < total - invalid then
    (total - invalid, !hasDeletedListed)
  else (valid, false)

/-- Counterexample to C7 as stated: with the default configuration, index
total `T = 5` and header valid count `V = 3`, the code emits no warning and
adjusts nothing, although `T ≠ V` — the claim requires a warning whenever
`T ≠ V`, and an active count that is `min`/`max` strictly by configuration. -/
theorem open_reconcile_counterexample :
    openReconcileRecordCounts false 5 3 = (5, 3, false) ∧ (5 : Int) ≠ 3 :=
  ⟨rfl, by decide⟩

/-- Claim C7 (amended): the reconciliation acts only when the header valid
count `V` exceeds the index total `T`: then by default (config unset) the
valid count is lowered to the total — both counts become `min T V` — and a
warning is emitted; with `OPENFILEGDB_USE_GDBTABLE_RECORD_COUNT=YES` the
total is raised to the valid count — both become `max T V` — with only a
debug message.  When `V ≤ T` both counts are left unchanged and no warning
is emitted. -/
theorem open_reconcile_amended (useTbl : Bool) (total valid : Int) :
    (total < valid →
      (useTbl = true → openReconcileRecordCounts useTbl total valid =
        (max total valid, max total valid, false)) ∧
      (useTbl = false → openReconcileRecordCounts useTbl total valid =
        (min total valid, min total valid, true))) ∧
    (valid ≤ total → openReconcileRecordCounts useTbl total valid =
      (total, valid, false)) := by
  refine ⟨fun h => ⟨fun hu => ?_, fun hu => ?_⟩, fun h => ?_⟩
  · rw [openReconcileRecordCounts, if_pos h, if_pos hu,
      max_eq_right (le_of_lt h)]
  · rw [openReconcileRecordCounts, if_pos h, hu, if_neg (by simp),
      min_eq_left (le_of_lt h)]
  · rw [openReconcileRecordCounts, if_neg (by omega)]

/-- Witness for C7 (amended) at `T = 2`, `V = 7` under both configuration
values, and at `T = 7`, `V = 2`. -/
theorem open_reconcile_amended_witness :
    openReconcileRecordCounts true 2 7 = (max 2 7, max 2 7, false) ∧
    openReconcileRecordCounts false 2 7 = (min 2 7, min 2 7, true) ∧
    openReconcileRecordCounts false 7 2 = (7, 2, false) :=
  ⟨((open_reconcile_amended true 2 7).1 (by decide)).1 rfl,
   ((open_reconcile_amended false 2 7).1 (by decide)).2 rfl,
   (open_reconcile_amended false 7 2).2 (by decide)⟩

/-- Counterexample to C8 as stated: (i) when the scan found 2 valid records
but the header declared 5, the code leaves the count at 5 — it is never
adjusted downward, contrary to the claim; (ii) when the scan found 5 and the
header declared 2 with deleted-feature reporting on, the count is raised to
5 with no warning — an upward silent adjustment the claim forbids. -/
theorem guess_reconcile_counterexample :
    guessReconcileValidCount 2 0 5 false = (5, false) ∧
    guessReconcileValidCount 5 0 2 true = (5, false) :=
  ⟨rfl, rfl⟩

/-- Claim C8 (amended): after the recovery scan, the header's declared
valid-record count is adjusted *upward* to the scan's count of valid records
whenever the scan found more than declared — with a warning unless deleted
features are being reported — and it is never adjusted downward. -/
theorem guess_reconcile_amended (total invalid valid : Int)
    (hasDeletedListed : Bool) :
    (valid < total - invalid →
      guessReconcileValidCount total invalid valid hasDeletedListed =
        (total - invalid, !hasDeletedListed)) ∧
    (total - invalid ≤ valid →
      guessReconcileValidCount total invalid valid hasDeletedListed =
        (valid, false)) ∧
    valid ≤ (guessReconcileValidCount total invalid valid hasDeletedListed).1 := by
  refine ⟨fun h => ?_, fun h => ?_, ?_⟩
  · rw [guessReconcileValidCount, if_pos h]
  · rw [guessReconcileValidCount, if_neg (by omega)]
  · rw [guessReconcileValidCount]
    split <;> simp <;> omega

/-- Witness for C8 (amended): scan found 6 valid records, header declared 4;
and scan found 3, header declared 4. -/
theorem guess_reconcile_amended_witness :
    guessReconcileValidCount 6 0 4 false = (6, true) ∧
    guessReconcileValidCount 3 0 4 false = (4, false) ∧
    (4 : Int) ≤ (guessReconcileValidCount 6 0 4 false).1 :=
  ⟨by simpa using (guess_reconcile_amended 6 0 4 false).1 (by decide),
   (guess_reconcile_amended 3 0 4 false).2.1 (by decide),
   (guess_reconcile_amended 6 0 4 false).2.2⟩

/-! ### Claim C6: offset resolution -/

def countPresentBefore (bm : List Nat) (iBlock : Nat) : Nat :=
  countBitsRange bm 0 iBlock

/-- The incremental present-block cache
(`m_nCountBlocksBeforeIBlockIdx` / `m_nCountBlocksBeforeIBlockValue`) holds
the number of present blocks before the cached block index.  This is the
invariant maintained by `GetOffsetInTableForRow`; it holds initially (both
fields start at 0). -/
def CacheConsistent (t : Tbl) : Prop :=
  t.countBlocksBeforeVal = countPresentBefore t.tablxBlockMap t.countBlocksBeforeIdx

instance (t : Tbl) : Decidable (CacheConsistent t) :=
  inferInstanceAs (Decidable (_ = _))

/-- Cache-free specification of row-offset resolution through the
`.gdbtablx` file: entry at `16 + entryWidth × row` without a block map;
with a block map, 0 for a row of an absent block, else the entry at
`16 + entryWidth × (1024 × presentBlocksBefore + row % 1024)`; 0 on a short
read. -/
def offsetForRowSpec (t : Tbl) (row : Nat) : Nat :=
  if t.tablxBlockMap = [] then
    if t.tablxFile.length < 16 + t.tablxOffsetSize * row + t.tablxOffsetSize
    then 0
    else readFeatureOffset t.tablxFile (16 + t.tablxOffsetSize * row)
      t.tablxOffsetSize
  else if testBit t.tablxBlockMap (row / 1024) = false then 0
  else
    let offX := 16 + t.tablxOffsetSize *
      (1024 * countPresentBefore t.tablxBlockMap (row / 1024) + row % 1024)
    if t.tablxFile.length < offX + t.tablxOffsetSize then 0
    else readFeatureOffset t.tablxFile offX t.tablxOffsetSize

theorem countBitsRange_decompose (bm : List Nat) (lo : Nat) :
    ∀ k, countBitsRange bm 0 (lo + k) =
      countBitsRange bm 0 lo + countBitsRange bm lo k
  | 0 => by simp [countBitsRange]
  | k + 1 => by
    rw [show lo + (k + 1) = (lo + k) + 1 by omega, countBitsRange,
      countBitsRange_decompose bm lo k, countBitsRange]
    simp only [Nat.zero_add]
    omega

/-- Claim C6: with a `.gdbtablx` file, offset resolution for an in-range row
returns exactly the cache-free specification `offsetForRowSpec` — entry at
`16 + entryWidth × row` without a block map; "absent" (0) when the row's
1024-row block is unset in the map; otherwise the entry at
`16 + entryWidth × (1024 × presentBlocksBefore + row % 1024)`; 0 on a short
read — and it preserves cache consistency, so the result never depends on
which rows were queried previously.  An out-of-range row yields offset 0
with no state change. -/
theorem offset_resolution (t : Tbl) (iRow : Int) (htx : t.hasTablX = true)
    (hcache : CacheConsistent t) :
    (0 ≤ iRow ∧ iRow < t.totalRecordCount →
      (getOffsetInTableForRow t iRow).1 = offsetForRowSpec t iRow.toNat ∧
      CacheConsistent (getOffsetInTableForRow t iRow).2) ∧
    (iRow < 0 ∨ t.totalRecordCount ≤ iRow →
      getOffsetInTableForRow t iRow = (0, t)) := by
  constructor
  · intro hrange
    rw [getOffsetInTableForRow, if_neg (by omega), htx]
    simp only [Bool.true_eq_false, if_false]
    by_cases hbm : t.tablxBlockMap = []
    · rw [if_neg (by simp [hbm]), offsetForRowSpec, if_pos hbm]
      dsimp only [readTablxEntry]
      by_cases hio : t.tablxFile.length <
          16 + t.tablxOffsetSize * iRow.toNat + t.tablxOffsetSize
      · rw [if_pos hio, if_pos hio]
        exact ⟨rfl, hcache⟩
      · rw [if_neg hio, if_neg hio]
        exact ⟨rfl, hcache⟩
    · rw [if_pos (by simp [hbm]), offsetForRowSpec, if_neg hbm]
      by_cases hbit : testBit t.tablxBlockMap (iRow.toNat / 1024) = false
      · rw [if_pos hbit, if_pos hbit]
        exact ⟨rfl, hcache⟩
      · rw [if_neg hbit, if_neg hbit]
        have hcount :
            (if t.countBlocksBeforeIdx ≤ iRow.toNat / 1024 then
              t.countBlocksBeforeVal +
                countBitsRange t.tablxBlockMap t.countBlocksBeforeIdx
                  (iRow.toNat / 1024 - t.countBlocksBeforeIdx)
            else countBitsRange t.tablxBlockMap 0 (iRow.toNat / 1024)) =
            countPresentBefore t.tablxBlockMap (iRow.toNat / 1024) := by
          split
          · rw [hcache, countPresentBefore, countPresentBefore,
              ← countBitsRange_decompose]
            congr 1
            omega
          · rfl
        dsimp only [readTablxEntry]
        rw [hcount]
        by_cases hio : t.tablxFile.length <
            16 + t.tablxOffsetSize *
              (1024 * countPresentBefore t.tablxBlockMap (iRow.toNat / 1024) +
                iRow.toNat % 1024) + t.tablxOffsetSize
        · rw [if_pos hio, if_pos hio]
          exact ⟨rfl, rfl⟩
        · rw [if_neg hio, if_neg hio]
          exact ⟨rfl, rfl⟩
  · intro hrange
    rw [getOffsetInTableForRow, if_pos (by omega)]

def emptyTbl : Tbl :=
  { fields := [], nullableSizeBytes := 0, stringsAreUTF8 := true,
    totalRecordCount := 0, validRecordCount := 0, headerBufferMaxSize := 0,
    hasTablX := true, tablxOffsetSize := 4, tablxBlockMap := [],
    tablxFile := [], mainFile := [], featureOffsets := [], update := false,
    fileSize := 0, curRow := -1, isDeleted := false, lastCol := -1,
    iterPos := 0, accNullable := 0, chSaved := -1, bError := false,
    buffer := [], rowBlobLength := 0, rowBufferMaxSize := 0,
    countBlocksBeforeIdx := 0, countBlocksBeforeVal := 0, dirtyHeader := false,
    dirtyIndices := false, hasWarnedHeaderRepair := false }

/-- A table with a block map `[5]` (blocks 0 and 2 present) and an index
entry 9 for corrected row 100. -/
def c6Tbl : Tbl :=
  { emptyTbl with
    totalRecordCount := 3000, tablxBlockMap := [5],
    tablxFile := List.replicate 416 0 ++ [9, 0, 0, 0] }

/-- Witness for C6 at row 100 of `c6Tbl`. -/
theorem offset_resolution_witness :
    (0 ≤ (100 : Int) ∧ (100 : Int) < c6Tbl.totalRecordCount →
      (getOffsetInTableForRow c6Tbl 100).1 = offsetForRowSpec c6Tbl (100 : Int).toNat ∧
      CacheConsistent (getOffsetInTableForRow c6Tbl 100).2) ∧
    ((100 : Int) < 0 ∨ c6Tbl.totalRecordCount ≤ (100 : Int) →
      getOffsetInTableForRow c6Tbl 100 = (0, c6Tbl)) :=
  offset_resolution c6Tbl 100 rfl (by decide)

/-! ### Claim C5: row-length validation in `SelectRow` -/

/-- A table with one nullable field (bitmask width 1) whose only row has a
declared blob length of 0: index entry at tablx offset 16 points to main
file offset 50, where the 4-byte length prefix reads 0. -/
def c5Tbl : Tbl :=
  { emptyTbl with
    fields := [⟨.string, true, .managed⟩], nullableSizeBytes := 1,
    totalRecordCount := 1,
    tablxFile := List.replicate 16 0 ++ [50, 0, 0, 0],
    mainFile := List.replicate 50 0 ++ [0, 0, 0, 0] }

/-- Counterexample to C5 as stated: `c5Tbl`'s row 0 declares blob length 0,
which is smaller than the schema-derived nullable-bitmask width 1, yet
`SelectRow` *succeeds*: the length checks are guarded by
`if (m_nRowBlobLength > 0)` (line 1681), so a zero declared length bypasses
them entirely. -/
theorem selectrow_length_counterexample :
    (selectRow false c5Tbl 0).1 = true ∧
    ((selectRow false c5Tbl 0).2).curRow = 0 ∧
    c5Tbl.nullableSizeBytes = 1 ∧
    getUInt32 ((getOffsetInTableForRow c5Tbl 0).2).mainFile
      (getOffsetInTableForRow c5Tbl 0).1 = 0 := by
  refine ⟨?_, ?_, rfl, ?_⟩ <;> decide

/-- Claim C5 (amended): for a row whose declared blob length (after
un-negating a deleted-record length) is *positive* and smaller than the
schema-derived nullable-bitmask byte width, or larger than
`INT_MAX - 4`, `SelectRow` fails immediately — the cursor is invalidated
and the row buffer is never touched (no field values are read).  A declared
length of exactly 0 bypasses the validation. -/
theorem selectrow_length_validation (cfgErr : Bool) (t t1 : Tbl) (iRow : Int)
    (off : Nat) (len : Nat)
    (hrange : 0 ≤ iRow ∧ iRow < t.totalRecordCount)
    (hnew : t.curRow ≠ iRow)
    (hres : getOffsetInTableForRow t iRow = (off, t1))
    (hoff : off ≠ 0)
    (hread : off + 4 ≤ t1.mainFile.length)
    (hlen : len = (if t1.isDeleted then (2 ^ 32 - getUInt32 t1.mainFile off) % 2 ^ 32
      else getUInt32 t1.mainFile off))
    (hbad : (0 < len ∧ len < t1.nullableSizeBytes) ∨ intMaxMinusSlack < len) :
    selectRow cfgErr t iRow =
      (false, { t1 with rowBlobLength := len, curRow := -1 }) := by
  rw [selectRow, if_neg (by omega), if_neg hnew, hres]
  dsimp only
  rw [if_neg hoff, if_neg (by omega), ← hlen]
  rw [if_pos (by omega : 0 < len), if_pos (by
    rcases hbad with ⟨-, h⟩ | h
    · exact Or.inl h
    · exact Or.inr h)]

/-- Like `c5Tbl` but with declared row length 1 and bitmask width 2. -/
def c5bTbl : Tbl :=
  { c5Tbl with
    fields := [⟨.string, true, .managed⟩, ⟨.string, true, .managed⟩],
    nullableSizeBytes := 2,
    mainFile := List.replicate 50 0 ++ [1, 0, 0, 0, 0] }

/-- Witness for C5 (amended) on `c5bTbl`: declared length 1 is positive and
smaller than the bitmask width 2, so row selection fails with the cursor
invalidated. -/
theorem selectrow_length_validation_witness :
    selectRow false c5bTbl 0 =
      (false,
        { (getOffsetInTableForRow c5bTbl 0).2 with
          rowBlobLength := 1, curRow := -1 }) :=
  selectrow_length_validation false c5bTbl
    (getOffsetInTableForRow c5bTbl 0).2 0
    (getOffsetInTableForRow c5bTbl 0).1 1
    (by decide) (by decide) rfl (by decide) (by decide) (by decide)
    (by decide)

/-! ### Claim C10: failed row selection invalidates the cursor -/

set_option maxHeartbeats 2000000 in
/-- Claim C10: whenever `SelectRow` returns failure (out-of-range row,
absent row with zero offset, short read, or row-length validation failure),
the current-row cursor is set to -1; while the cursor is negative every
`GetFieldValue` call returns the error value (`nullptr`, modelled `none`)
and leaves the state unchanged, so this persists until a `SelectRow`
succeeds — and a succeeding `SelectRow` from an invalidated cursor always
re-establishes `curRow = iRow` with the error flag cleared. -/
theorem selectrow_failure_invalidates_cursor :
    (∀ (cfgErr : Bool) (t : Tbl) (iRow : Int),
      ((selectRow cfgErr t iRow).2).curRow = -1 ∨
      (selectRow cfgErr t iRow).1 = true) ∧
    (∀ (t : Tbl) (iCol : Nat), t.curRow < 0 → getFieldValue t iCol = (none, t)) ∧
    (∀ (cfgErr : Bool) (t : Tbl) (iRow : Int), t.curRow < 0 →
      (selectRow cfgErr t iRow).1 = false ∨
      (((selectRow cfgErr t iRow).2).curRow = iRow ∧
        ((selectRow cfgErr t iRow).2).bError = false)) := by
  refine ⟨?_, ?_, ?_⟩
  · intro cfgErr t iRow
    unfold selectRow
    repeat' (first | split | dsimp only)
    all_goals simp [selectRowOk]
  · intro t iCol h
    rw [getFieldValue, if_pos h]
  · intro cfgErr t iRow hneg
    unfold selectRow
    repeat' (first | split | dsimp only)
    all_goals
      first
      | (rename_i hc heq; exfalso; omega)
      | simp [selectRowOk]

/-- Witness for C10: an out-of-range selection on the empty table fails with
the cursor at -1; `GetFieldValue` on an invalidated cursor returns `none`
without touching the state; and a selection on `c5Tbl` row 0 from an
invalidated cursor either fails or sets the cursor with no error. -/
theorem selectrow_failure_invalidates_cursor_witness :
    (((selectRow false emptyTbl 5).2).curRow = -1 ∨
      (selectRow false emptyTbl 5).1 = true) ∧
    getFieldValue { emptyTbl with curRow := -1 } 3 =
      (none, { emptyTbl with curRow := -1 }) ∧
    ((selectRow false c5Tbl 0).1 = false ∨
      (((selectRow false c5Tbl 0).2).curRow = 0 ∧
        ((selectRow false c5Tbl 0).2).bError = false)) :=
  ⟨selectrow_failure_invalidates_cursor.1 false emptyTbl 5,
   selectrow_failure_invalidates_cursor.2.1 { emptyTbl with curRow := -1 } 3
      (by decide),
   selectrow_failure_invalidates_cursor.2.2 false c5Tbl 0 (by decide)⟩

/-! ### Claim C4: nullable bitmask -/

def c4Fields : List FGField :=
  [⟨.int32, false, .managed⟩, ⟨.string, true, .managed⟩]

/-- The claim's literal scenario: 2 fields (int32 NOT NULL, string NULLABLE),
bitmask byte `0b00000010`, int32 value bytes `[1,0,0,0]`, and — since the
claim says the string is null — no further value bytes (blob length 5),
followed by the 4 guard zero bytes.  The state is as left by a successful
`SelectRow`. -/
def c4BadTbl : Tbl :=
  { emptyTbl with
    fields := c4Fields, nullableSizeBytes := 1, curRow := 0, iterPos := 1,
    buffer := [2, 1, 0, 0, 0, 0, 0, 0, 0], rowBlobLength := 5 }

/-- Counterexample to C4's example scenario: the nullable bitmask holds one
bit per *nullable* field (`m_iAccNullable` is incremented only for nullable
fields), so the string's bit is bit 0, not bit 1.  With bitmask byte
`0b00000010` bit 0 is clear, the string is treated as *present*, and
`GetFieldValue(1)` tries to read a string-length varint past the end of the
blob: it returns the error value with `m_bError` set, not a clean null.
The int32 itself still decodes normally. -/
theorem nullbitmask_example_counterexample :
    (getFieldValue c4BadTbl 1).1 = none ∧
    ((getFieldValue c4BadTbl 1).2).bError = true ∧
    (getFieldValue c4BadTbl 0).1 = some (.intVal 1) := by
  refine ⟨?_, ?_, ?_⟩ <;> decide

/-- Claim C4 (amended): a field flagged nullable whose nullable-bitmask bit —
indexed by the field's position among the nullable fields only, tested
LSB-first — is set is decoded as null without consuming any bytes of the
row's value stream: the iterator, buffer and error flag are untouched and
only the nullable-bit counter advances.  In the 2-field example
(int32 NOT NULL, string NULLABLE) the bitmask byte marking the string null
is `0b00000001` (the string is nullable field number 0), not `0b00000010`. -/
theorem nullbitmask_null_skips_value (t : Tbl) (iCol : Nat) (f : FGField)
    (hcur : 0 ≤ t.curRow) (herr : t.bError = false) (hch : t.chSaved = -1)
    (hcol : iCol < t.fields.length) (hf : t.fields.getD iCol default = f)
    (hmono : t.lastCol + 1 = (iCol : Int))
    (hnullable : f.nullable = true)
    (hbit : testBit t.buffer t.accNullable = true) :
    getFieldValue t iCol =
      (none,
        { t with
          lastCol := (iCol : Int), iterPos := t.iterPos,
          accNullable := t.accNullable + 1, chSaved := -1,
          buffer := t.buffer, bError := false }) := by
  have hcs : ¬(0 ≤ t.chSaved) := by rw [hch]; norm_num
  have hlt : ¬((iCol : Int) ≤ t.lastCol) := by omega
  rw [getFieldValue, if_neg (by omega), if_neg (by omega),
    if_neg (by simp [herr])]
  dsimp only
  rw [if_neg hcs]
  rw [if_neg hlt]
  have hstart : (t.lastCol + 1).toNat = iCol := by omega
  rw [getFieldValueCore, hstart]
  simp only [Nat.sub_self, List.take_zero, skipFields]
  rw [if_neg (by simp)]
  rw [hf, decodeField, if_pos ⟨hnullable, hbit⟩]

/-- Like `c4BadTbl` but with the corrected bitmask byte `0b00000001`. -/
def c4GoodTbl : Tbl :=
  { c4BadTbl with buffer := [1, 1, 0, 0, 0, 0, 0, 0, 0] }

/-- Witness for C4 (amended): on `c4GoodTbl`, after decoding the int32
(`GetFieldValue(0)` returns 1), the string column decodes as null without
moving the value iterator. -/
theorem nullbitmask_null_skips_value_witness :
    getFieldValue ((getFieldValue c4GoodTbl 0).2) 1 =
      (none,
        { (getFieldValue c4GoodTbl 0).2 with
          lastCol := ((1 : Nat) : Int),
          iterPos := ((getFieldValue c4GoodTbl 0).2).iterPos,
          accNullable := ((getFieldValue c4GoodTbl 0).2).accNullable + 1,
          chSaved := -1, buffer := ((getFieldValue c4GoodTbl 0).2).buffer,
          bError := false }) :=
  nullbitmask_null_skips_value ((getFieldValue c4GoodTbl 0).2) 1
    ⟨.string, true, .managed⟩ (by decide) (by decide) (by decide) (by decide)
    (by decide) (by decide) (by decide) (by decide)

/-! ### Claim C9: order-independence of `GetFieldValue`

The stateful furthest-decoded-column cursor is shown observationally
equivalent to decoding from scratch: any sequence of `GetFieldValue` calls
on a well-formed selected row leaves the decoder in a state *coherent* with
the fresh post-`SelectRow` state, and from every coherent state the value
returned for a column equals the value the fresh state returns. -/

theorem list_set_getD : ∀ (l : List Nat) (n : Nat), l.set n (l.getD n 0) = l
  | [], _ => rfl
  | b :: rest, 0 => rfl
  | b :: rest, n + 1 => by
    simp only [List.set, List.getD, List.get?, List.cons.injEq, true_and]
    exact list_set_getD rest n

theorem skipFields_append_ok (buffer : List Nat) (endPos : Nat) :
    ∀ (l1 l2 : List FGField) (ip acc ip2 acc2 : Nat),
    skipFields buffer endPos l1 ip acc = (true, ip2, acc2) →
    skipFields buffer endPos (l1 ++ l2) ip acc =
      skipFields buffer endPos l2 ip2 acc2
  | [], l2, ip, acc, ip2, acc2 => by
    intro h
    simp only [skipFields, Prod.mk.injEq, true_and] at h
    simp [h.1, h.2]
  | f :: rest, l2, ip, acc, ip2, acc2 => by
    intro h
    rw [skipFields] at h
    rw [List.cons_append, skipFields]
    by_cases hr : (skipField buffer endPos f ip acc).1 = true
    · rw [if_pos hr] at h ⊢
      exact skipFields_append_ok buffer endPos rest l2 _ _ ip2 acc2 h
    · rw [if_neg hr] at h
      exact absurd (congrArg Prod.fst h) (by simpa using hr)

theorem skipFields_append_fail (buffer : List Nat) (endPos : Nat) :
    ∀ (l1 l2 : List FGField) (ip acc : Nat),
    (skipFields buffer endPos l1 ip acc).1 = false →
    skipFields buffer endPos (l1 ++ l2) ip acc =
      skipFields buffer endPos l1 ip acc
  | [], l2, ip, acc => by
    intro h
    simp [skipFields] at h
  | f :: rest, l2, ip, acc => by
    intro h
    rw [skipFields] at h
    rw [List.cons_append, skipFields, skipFields]
    by_cases hr : (skipField buffer endPos f ip acc).1 = true
    · rw [if_pos hr] at h
      rw [if_pos hr, if_pos hr]
      exact skipFields_append_fail buffer endPos rest l2 _ _ h
    · rw [if_neg hr, if_neg hr]

theorem skipFields_single (buffer : List Nat) (endPos : Nat) (f : FGField)
    (ip acc : Nat) :
    skipFields buffer endPos [f] ip acc = skipField buffer endPos f ip acc := by
  simp only [skipFields]
  by_cases hr : (skipField buffer endPos f ip acc).1 = true
  · rw [if_pos hr]
    exact Prod.ext hr.symm rfl
  · rw [if_neg hr]

/-- A successful fixed-size skip pins down the bounds check and the
resulting positions. -/
theorem skipFixed_decode {k : Nat} (buffer : List Nat) (endPos ip acc2 : Nat)
    (h : (skipFixed k buffer endPos ip acc2).1 = true) (hk : 0 < k) :
    ¬(endPos < ip + k) ∧
      skipFixed k buffer endPos ip acc2 = (true, ip + k, acc2) := by
  rw [skipFixed] at h ⊢
  split at h
  · exact absurd h (by simp)
  · rename_i hge
    refine ⟨by omega, ?_⟩
    rw [if_neg hge]

/-- A successful variable-length skip pins down the varint read, the bounds
check and the resulting positions. -/
theorem skipVarLen_decode (buffer : List Nat) (endPos ip acc2 : Nat)
    (h : (skipVarLen buffer endPos ip acc2).1 = true) :
    ∃ len ip2, readVarUInt32 (bufFn buffer) endPos ip = .success len ip2 ∧
      ¬(endPos - ip2 < len) ∧
      skipVarLen buffer endPos ip acc2 = (true, ip2 + len, acc2) := by
  rw [skipVarLen] at h ⊢
  generalize hv : readVarUInt32 (bufFn buffer) endPos ip = res at h ⊢
  cases res with
  | boundsFail => exact absurd h (by simp)
  | shiftFail v ip2 => exact absurd h (by simp)
  | success len ip2 =>
    dsimp only at h ⊢
    split at h
    · exact absurd h (by simp)
    · rename_i hge
      exact ⟨len, ip2, rfl, hge, by rw [if_neg hge]⟩

/-- Wherever the skip pass (`GetFieldValue`'s loop over the fields before
the requested column) succeeds on a field, the decode pass (the per-type
switch) succeeds too and leaves the iterator and nullable-bit counter at
exactly the same place: both passes agree on each field's encoded size. -/
theorem decodeField_of_skipField (utf8 : Bool) (buffer : List Nat)
    (endPos : Nat) (f : FGField) (ip acc : Nat)
    (h : (skipField buffer endPos f ip acc).1 = true) :
    (decodeField utf8 buffer endPos f ip acc).err = false ∧
    (decodeField utf8 buffer endPos f ip acc).ip =
      (skipField buffer endPos f ip acc).2.1 ∧
    (decodeField utf8 buffer endPos f ip acc).acc =
      (skipField buffer endPos f ip acc).2.2 := by
  obtain ⟨ty, nb, rt⟩ := f
  rw [skipField] at h ⊢
  rw [decodeField]
  by_cases hc : nb = true ∧ testBit buffer acc = true
  · rw [if_pos hc] at h ⊢
    rw [if_pos hc]
    exact ⟨rfl, rfl, rfl⟩
  · rw [if_neg hc] at h ⊢
    rw [if_neg hc]
    cases ty <;> (try cases rt) <;> dsimp only at h ⊢ <;>
      first
      | exact ⟨rfl, rfl, rfl⟩
      | (obtain ⟨h1, h2⟩ := skipFixed_decode buffer endPos ip _ h (by omega)
         rw [h2, if_neg h1]
         exact ⟨rfl, rfl, rfl⟩)
      | (obtain ⟨len, ip2, hv, hbound, hsk⟩ :=
           skipVarLen_decode buffer endPos ip _ h
         rw [hsk, hv]
         dsimp only
         rw [if_neg hbound]
         first
         | exact ⟨rfl, rfl, rfl⟩
         | (split <;> exact ⟨rfl, rfl, rfl⟩))

/-- The decode pass either leaves the row buffer untouched with no saved
byte, or saves the byte right after the decoded payload and overwrites it
with a 0 terminator (the zero-copy null-termination trick). -/
theorem decodeField_restore (utf8 : Bool) (buffer : List Nat) (endPos : Nat)
    (f : FGField) (ip acc : Nat) :
    ((decodeField utf8 buffer endPos f ip acc).chSaved = -1 ∧
      (decodeField utf8 buffer endPos f ip acc).buffer = buffer) ∨
    ((decodeField utf8 buffer endPos f ip acc).chSaved =
        ((buffer.getD (decodeField utf8 buffer endPos f ip acc).ip 0 : Nat) :
          Int) ∧
      (decodeField utf8 buffer endPos f ip acc).buffer =
        buffer.set (decodeField utf8 buffer endPos f ip acc).ip 0) := by
  obtain ⟨ty, nb, rt⟩ := f
  rw [decodeField]
  by_cases hc : nb = true ∧ testBit buffer acc = true
  · rw [if_pos hc]
    exact Or.inl ⟨rfl, rfl⟩
  · rw [if_neg hc]
    cases ty <;> (try cases rt) <;> dsimp only <;>
      first
      | exact Or.inl ⟨rfl, rfl⟩
      | (split <;>
          first
          | exact Or.inl ⟨rfl, rfl⟩
          | exact Or.inr ⟨rfl, rfl⟩
          | (split <;>
              first
              | exact Or.inl ⟨rfl, rfl⟩
              | exact Or.inr ⟨rfl, rfl⟩
              | (split <;>
                  first
                  | exact Or.inl ⟨rfl, rfl⟩
                  | exact Or.inr ⟨rfl, rfl⟩)))

/-- Cursorless reference walk: skip the first `n` fields of the row from the
start of the value stream (right after the nullable bitmask). -/
def walkTo (t0 : Tbl) (n : Nat) : Bool × Nat × Nat :=
  skipFields t0.buffer t0.rowBlobLength (t0.fields.take n)
    t0.nullableSizeBytes 0

/-- The decoder state immediately after a successful `SelectRow`: valid
current row, no error, and the column cursor reset (`m_nLastCol = -1`,
iterator at the start of the value stream, no saved byte). -/
def Fresh (t0 : Tbl) : Prop :=
  0 ≤ t0.curRow ∧ t0.bError = false ∧ t0.lastCol = -1 ∧
  t0.iterPos = t0.nullableSizeBytes ∧ t0.accNullable = 0 ∧ t0.chSaved = -1

instance (t0 : Tbl) : Decidable (Fresh t0) := by
  rw [Fresh]; infer_instance

/-- A well-formed selected row: the skip pass walks all fields of the row
without a bounds failure. -/
def WellFormed (t0 : Tbl) : Prop :=
  (walkTo t0 t0.fields.length).1 = true

instance (t0 : Tbl) : Decidable (WellFormed t0) := by
  rw [WellFormed]; infer_instance

theorem walkTo_ok (t0 : Tbl) (hw : WellFormed t0) (n : Nat) :
    (walkTo t0 n).1 = true := by
  cases hb : (walkTo t0 n).1
  · exfalso
    rw [walkTo] at hb
    have hall := skipFields_append_fail t0.buffer t0.rowBlobLength
      (t0.fields.take n) (t0.fields.drop n) t0.nullableSizeBytes 0 hb
    rw [List.take_append_drop] at hall
    rw [WellFormed, walkTo, List.take_length, hall, hb] at hw
    exact Bool.false_ne_true hw
  · rfl

theorem walkTo_eq (t0 : Tbl) (hw : WellFormed t0) (n : Nat) :
    walkTo t0 n = (true, (walkTo t0 n).2.1, (walkTo t0 n).2.2) :=
  Prod.ext (walkTo_ok t0 hw n) rfl

theorem walkTo_succ (t0 : Tbl) (hw : WellFormed t0) (n : Nat)
    (hn : n < t0.fields.length) :
    walkTo t0 (n + 1) =
      skipField t0.buffer t0.rowBlobLength (t0.fields.getD n default)
        (walkTo t0 n).2.1 (walkTo t0 n).2.2 := by
  have hpre : skipFields t0.buffer t0.rowBlobLength (t0.fields.take n)
      t0.nullableSizeBytes 0 =
      (true, (walkTo t0 n).2.1, (walkTo t0 n).2.2) := walkTo_eq t0 hw n
  rw [walkTo, List.take_succ]
  have hget : t0.fields[n]?.toList = [t0.fields.getD n default] := by
    rw [List.getElem?_eq_getElem hn, List.getD_eq_getElem t0.fields default hn]
    rfl
  rw [hget,
    skipFields_append_ok t0.buffer t0.rowBlobLength (t0.fields.take n)
      [t0.fields.getD n default] t0.nullableSizeBytes 0 (walkTo t0 n).2.1
      (walkTo t0 n).2.2 hpre,
    skipFields_single]

/-- Skipping the fields `n ≤ iCol` between two reference walk points, from
the earlier point's positions, succeeds and lands exactly on the later
point's positions. -/
theorem walkTo_segment (t0 : Tbl) (hw : WellFormed t0) (n iCol : Nat)
    (hn : n ≤ iCol) :
    skipFields t0.buffer t0.rowBlobLength
      ((t0.fields.drop n).take (iCol - n)) (walkTo t0 n).2.1
      (walkTo t0 n).2.2 =
    (true, (walkTo t0 iCol).2.1, (walkTo t0 iCol).2.2) := by
  have hpre : skipFields t0.buffer t0.rowBlobLength (t0.fields.take n)
      t0.nullableSizeBytes 0 =
      (true, (walkTo t0 n).2.1, (walkTo t0 n).2.2) := walkTo_eq t0 hw n
  have hdec := List.take_add t0.fields n (iCol - n)
  rw [show n + (iCol - n) = iCol from by omega] at hdec
  have hx : walkTo t0 iCol =
      skipFields t0.buffer t0.rowBlobLength
        ((t0.fields.drop n).take (iCol - n)) (walkTo t0 n).2.1
        (walkTo t0 n).2.2 := by
    rw [walkTo, hdec]
    exact skipFields_append_ok t0.buffer t0.rowBlobLength (t0.fields.take n)
      ((t0.fields.drop n).take (iCol - n)) t0.nullableSizeBytes 0
      (walkTo t0 n).2.1 (walkTo t0 n).2.2 hpre
  rw [← hx]
  exact walkTo_eq t0 hw iCol

/-- The fresh-decode result for column `c`: decode field `c` at the
reference walk's positions. -/
def fieldResult (t0 : Tbl) (c : Nat) : DecodeOut :=
  decodeField t0.stringsAreUTF8 t0.buffer t0.rowBlobLength
    (t0.fields.getD c default) (walkTo t0 c).2.1 (walkTo t0 c).2.2

/-- The decoder state after a successful in-range `GetFieldValue` for
column `c` from a coherent state. -/
def stateAfter (t0 : Tbl) (c : Nat) : Tbl :=
  { t0 with
    lastCol := (c : Int), iterPos := (fieldResult t0 c).ip,
    accNullable := (fieldResult t0 c).acc,
    chSaved := (fieldResult t0 c).chSaved,
    buffer := (fieldResult t0 c).buffer, bError := (fieldResult t0 c).err }

/-- On a well-formed row the fresh decode of an in-range column never
errors and its final positions are the reference walk past that column. -/
theorem fieldResult_walk (t0 : Tbl) (hw : WellFormed t0) (c : Nat)
    (hc : c < t0.fields.length) :
    (fieldResult t0 c).err = false ∧
    (fieldResult t0 c).ip = (walkTo t0 (c + 1)).2.1 ∧
    (fieldResult t0 c).acc = (walkTo t0 (c + 1)).2.2 := by
  have hsucc := walkTo_succ t0 hw c hc
  have hok := walkTo_ok t0 hw (c + 1)
  rw [hsucc] at hok
  have hmain := decodeField_of_skipField t0.stringsAreUTF8 t0.buffer
    t0.rowBlobLength (t0.fields.getD c default) (walkTo t0 c).2.1
    (walkTo t0 c).2.2 hok
  refine ⟨hmain.1, ?_, ?_⟩
  · rw [fieldResult, hsucc]
    exact hmain.2.1
  · rw [fieldResult, hsucc]
    exact hmain.2.2

theorem fieldResult_restore (t0 : Tbl) (c : Nat) :
    ((fieldResult t0 c).chSaved = -1 ∧
      (fieldResult t0 c).buffer = t0.buffer) ∨
    ((fieldResult t0 c).chSaved =
        ((t0.buffer.getD (fieldResult t0 c).ip 0 : Nat) : Int) ∧
      (fieldResult t0 c).buffer =
        t0.buffer.set (fieldResult t0 c).ip 0) := by
  rw [fieldResult]
  exact decodeField_restore t0.stringsAreUTF8 t0.buffer t0.rowBlobLength
    (t0.fields.getD c default) (walkTo t0 c).2.1 (walkTo t0 c).2.2

/-- Evaluation of the column-walking core when the intermediate skip pass
succeeds. -/
theorem getFieldValueCore_ok (t2 : Tbl) (iCol P A : Nat) (r : DecodeOut)
    (hskip : skipFields t2.buffer t2.rowBlobLength
        ((t2.fields.drop (t2.lastCol + 1).toNat).take
          (iCol - (t2.lastCol + 1).toNat))
        t2.iterPos t2.accNullable = (true, P, A))
    (hr : decodeField t2.stringsAreUTF8 t2.buffer t2.rowBlobLength
        (t2.fields.getD iCol default) P A = r) :
    getFieldValueCore t2 iCol =
      (r.res,
        { t2 with
          lastCol := (iCol : Int), iterPos := r.ip, accNullable := r.acc,
          chSaved := r.chSaved, buffer := r.buffer, bError := r.err }) := by
  subst hr
  rw [getFieldValueCore]
  dsimp only
  rw [hskip]
  dsimp only
  rw [if_neg (by decide)]

/-- A `GetFieldValue` call on a fresh (just-selected) well-formed row
returns the fresh-decode result and leaves the canonical post-decode
state. -/
theorem getFieldValue_fresh (t0 : Tbl) (hf : Fresh t0) (hw : WellFormed t0)
    (iCol : Nat) (hcol : iCol < t0.fields.length) :
    getFieldValue t0 iCol = ((fieldResult t0 iCol).res, stateAfter t0 iCol) := by
  obtain ⟨hcr, hbe, hlc, hip, hacc, hch⟩ := hf
  rw [getFieldValue, if_neg (by omega), if_neg (by omega),
    if_neg (by simp [hbe])]
  dsimp only
  rw [if_neg (show ¬(0 : Int) ≤ t0.chSaved by omega)]
  rw [if_neg (show ¬(iCol : Int) ≤ t0.lastCol by omega)]
  have hskip : skipFields t0.buffer t0.rowBlobLength
      ((t0.fields.drop (t0.lastCol + 1).toNat).take
        (iCol - (t0.lastCol + 1).toNat)) t0.iterPos t0.accNullable =
      (true, (walkTo t0 iCol).2.1, (walkTo t0 iCol).2.2) := by
    rw [hlc, hip, hacc]
    exact walkTo_segment t0 hw 0 iCol (Nat.zero_le iCol)
  rw [getFieldValueCore_ok t0 iCol (walkTo t0 iCol).2.1 (walkTo t0 iCol).2.2
    (fieldResult t0 iCol) hskip rfl]
  rfl

/-- A `GetFieldValue` call for an out-of-range column returns the error
value and leaves the state untouched. -/
theorem getFieldValue_oob (t : Tbl) (iCol : Nat)
    (h : t.fields.length ≤ iCol) : getFieldValue t iCol = (none, t) := by
  rw [getFieldValue]
  by_cases h1 : t.curRow < 0
  · rw [if_pos h1]
  · rw [if_neg h1, if_pos h]

/-- A `GetFieldValue` call from the state left by a previous call — whether
the new column is behind the cursor (rewind to column 0) or ahead of it
(continue forward) — returns exactly the fresh-decode result and leaves the
same state a fresh call for that column leaves. -/
theorem getFieldValue_step (t0 : Tbl) (hf : Fresh t0) (hw : WellFormed t0)
    (c iCol : Nat) (hc : c < t0.fields.length)
    (hcol : iCol < t0.fields.length) :
    getFieldValue (stateAfter t0 c) iCol =
      ((fieldResult t0 iCol).res, stateAfter t0 iCol) := by
  obtain ⟨hcr, hbe, hlc, hip, hacc, hch⟩ := hf
  obtain ⟨herr, hwip, hwacc⟩ := fieldResult_walk t0 hw c hc
  rw [getFieldValue]
  rw [if_neg (show ¬(stateAfter t0 c).curRow < 0 by
    simp only [stateAfter]; omega)]
  rw [if_neg (show ¬(stateAfter t0 c).fields.length ≤ iCol by
    simp only [stateAfter]; omega)]
  rw [if_neg (show ¬(stateAfter t0 c).bError = true by
    simp only [stateAfter]; rw [herr]; simp)]
  dsimp only
  rcases fieldResult_restore t0 c with ⟨h1, h2⟩ | ⟨h1, h2⟩ <;>
    [rw [if_neg (show ¬(0 : Int) ≤ (stateAfter t0 c).chSaved by
        simp only [stateAfter]; rw [h1]; decide)];
     rw [if_pos (show (0 : Int) ≤ (stateAfter t0 c).chSaved by
        simp only [stateAfter]; rw [h1]; exact Int.natCast_nonneg _)]] <;>
    by_cases hle : iCol ≤ c
  · -- no saved byte, rewind to column 0
    rw [if_pos (show (iCol : Int) ≤ (stateAfter t0 c).lastCol by
      simp only [stateAfter]; exact_mod_cast hle)]
    have hskip : skipFields
        ({ stateAfter t0 c with
            lastCol := -1, iterPos := (stateAfter t0 c).nullableSizeBytes,
            accNullable := 0 } : Tbl).buffer t0.rowBlobLength
        ((t0.fields.drop ((-1 : Int) + 1).toNat).take
          (iCol - ((-1 : Int) + 1).toNat)) t0.nullableSizeBytes 0 =
        (true, (walkTo t0 iCol).2.1, (walkTo t0 iCol).2.2) := by
      simp only [stateAfter]
      rw [h2, show ((-1 : Int) + 1).toNat = 0 from rfl]
      exact walkTo_segment t0 hw 0 iCol (Nat.zero_le iCol)
    have hr : decodeField t0.stringsAreUTF8
        ({ stateAfter t0 c with
            lastCol := -1, iterPos := (stateAfter t0 c).nullableSizeBytes,
            accNullable := 0 } : Tbl).buffer t0.rowBlobLength
        (t0.fields.getD iCol default) (walkTo t0 iCol).2.1
        (walkTo t0 iCol).2.2 = fieldResult t0 iCol := by
      simp only [stateAfter]
      rw [h2, fieldResult]
    rw [getFieldValueCore_ok _ iCol (walkTo t0 iCol).2.1 (walkTo t0 iCol).2.2
      (fieldResult t0 iCol) hskip hr]
    rfl
  · -- no saved byte, continue forward from column c
    rw [if_neg (show ¬(iCol : Int) ≤ (stateAfter t0 c).lastCol by
      simp only [stateAfter]; exact_mod_cast hle)]
    have hskip : skipFields (stateAfter t0 c).buffer t0.rowBlobLength
        ((t0.fields.drop ((c : Int) + 1).toNat).take
          (iCol - ((c : Int) + 1).toNat)) (stateAfter t0 c).iterPos
        (stateAfter t0 c).accNullable =
        (true, (walkTo t0 iCol).2.1, (walkTo t0 iCol).2.2) := by
      simp only [stateAfter]
      rw [h2, hwip, hwacc, show ((c : Int) + 1).toNat = c + 1 from by omega]
      exact walkTo_segment t0 hw (c + 1) iCol (by omega)
    have hr : decodeField t0.stringsAreUTF8 (stateAfter t0 c).buffer
        t0.rowBlobLength (t0.fields.getD iCol default) (walkTo t0 iCol).2.1
        (walkTo t0 iCol).2.2 = fieldResult t0 iCol := by
      simp only [stateAfter]
      rw [h2, fieldResult]
    rw [getFieldValueCore_ok _ iCol (walkTo t0 iCol).2.1 (walkTo t0 iCol).2.2
      (fieldResult t0 iCol) hskip hr]
    rfl
  · -- saved byte restored, rewind to column 0
    rw [if_pos (show (iCol : Int) ≤
        ({ stateAfter t0 c with
            buffer := (stateAfter t0 c).buffer.set (stateAfter t0 c).iterPos
              (stateAfter t0 c).chSaved.toNat, chSaved := -1 } : Tbl).lastCol by
      simp only [stateAfter]; exact_mod_cast hle)]
    have hbuf : ((stateAfter t0 c).buffer.set (stateAfter t0 c).iterPos
        (stateAfter t0 c).chSaved.toNat) = t0.buffer := by
      simp only [stateAfter]
      rw [h1, h2,
        show ((t0.buffer.getD (fieldResult t0 c).ip 0 : Nat) : Int).toNat =
          t0.buffer.getD (fieldResult t0 c).ip 0 from by omega,
        List.set_set, list_set_getD]
    have hskip : skipFields t0.buffer t0.rowBlobLength
        ((t0.fields.drop ((-1 : Int) + 1).toNat).take
          (iCol - ((-1 : Int) + 1).toNat)) t0.nullableSizeBytes 0 =
        (true, (walkTo t0 iCol).2.1, (walkTo t0 iCol).2.2) := by
      rw [show ((-1 : Int) + 1).toNat = 0 from rfl]
      exact walkTo_segment t0 hw 0 iCol (Nat.zero_le iCol)
    rw [hbuf]
    exact getFieldValueCore_ok _ iCol (walkTo t0 iCol).2.1
      (walkTo t0 iCol).2.2 (fieldResult t0 iCol) hskip rfl
  · -- saved byte restored, continue forward from column c
    rw [if_neg (show ¬(iCol : Int) ≤
        ({ stateAfter t0 c with
            buffer := (stateAfter t0 c).buffer.set (stateAfter t0 c).iterPos
              (stateAfter t0 c).chSaved.toNat, chSaved := -1 } : Tbl).lastCol by
      simp only [stateAfter]; exact_mod_cast hle)]
    have hbuf : ((stateAfter t0 c).buffer.set (stateAfter t0 c).iterPos
        (stateAfter t0 c).chSaved.toNat) = t0.buffer := by
      simp only [stateAfter]
      rw [h1, h2,
        show ((t0.buffer.getD (fieldResult t0 c).ip 0 : Nat) : Int).toNat =
          t0.buffer.getD (fieldResult t0 c).ip 0 from by omega,
        List.set_set, list_set_getD]
    rw [hbuf]
    have hskip : skipFields t0.buffer t0.rowBlobLength
        ((t0.fields.drop ((c : Int) + 1).toNat).take
          (iCol - ((c : Int) + 1).toNat)) (stateAfter t0 c).iterPos
        (stateAfter t0 c).accNullable =
        (true, (walkTo t0 iCol).2.1, (walkTo t0 iCol).2.2) := by
      simp only [stateAfter]
      rw [hwip, hwacc, show ((c : Int) + 1).toNat = c + 1 from by omega]
      exact walkTo_segment t0 hw (c + 1) iCol (by omega)
    exact getFieldValueCore_ok _ iCol (walkTo t0 iCol).2.1
      (walkTo t0 iCol).2.2 (fieldResult t0 iCol) hskip rfl

/-- Run a sequence of `GetFieldValue` calls, threading the decoder state. -/
def applyCalls (t : Tbl) : List Nat → Tbl
  | [] => t
  | c :: rest => applyCalls (getFieldValue t c).2 rest

theorem applyCalls_shape_aux (t0 : Tbl) (hf : Fresh t0) (hw : WellFormed t0) :
    ∀ (calls : List Nat) (t : Tbl),
      (t = t0 ∨ ∃ c, c < t0.fields.length ∧ t = stateAfter t0 c) →
      (applyCalls t calls = t0 ∨
        ∃ c, c < t0.fields.length ∧ applyCalls t calls = stateAfter t0 c)
  | [], t, ht => by simpa [applyCalls] using ht
  | call :: rest, t, ht => by
    rw [applyCalls]
    apply applyCalls_shape_aux t0 hf hw rest
    by_cases hcl : call < t0.fields.length
    · rcases ht with heq | ⟨c0, hc0, heq⟩
      · right
        refine ⟨call, hcl, ?_⟩
        rw [heq, getFieldValue_fresh t0 hf hw call hcl]
      · right
        refine ⟨call, hcl, ?_⟩
        rw [heq, getFieldValue_step t0 hf hw c0 call hc0 hcl]
    · rcases ht with heq | ⟨c0, hc0, heq⟩
      · left
        rw [heq, getFieldValue_oob t0 call (by omega)]
      · right
        refine ⟨c0, hc0, ?_⟩
        rw [heq, getFieldValue_oob (stateAfter t0 c0) call
          (show (stateAfter t0 c0).fields.length ≤ call by
            simp only [stateAfter]; omega)]

/-- Claim C9: on a well-formed freshly selected row, `GetFieldValue` is
order-independent — after any sequence of prior `GetFieldValue` calls
within the same row selection, the value returned for any column equals the
value a fresh post-`SelectRow` state returns for that column.  The stateful
furthest-decoded-column cursor (forward continuation for monotonic access,
rewind to column 0 with restoration of the temporarily overwritten
null-termination byte for backward access) is observationally equivalent to
decoding from scratch. -/
theorem getfieldvalue_order_independent (t0 : Tbl) (hf : Fresh t0)
    (hw : WellFormed t0) (calls : List Nat) (iCol : Nat) :
    (getFieldValue (applyCalls t0 calls) iCol).1 =
      (getFieldValue t0 iCol).1 := by
  have hshape := applyCalls_shape_aux t0 hf hw calls t0 (Or.inl rfl)
  by_cases hcol : iCol < t0.fields.length
  · rcases hshape with heq | ⟨c, hc, heq⟩
    · rw [heq]
    · rw [heq, getFieldValue_step t0 hf hw c iCol hc hcol,
        getFieldValue_fresh t0 hf hw iCol hcol]
  · rcases hshape with heq | ⟨c, hc, heq⟩
    · rw [heq]
    · rw [heq,
        getFieldValue_oob (stateAfter t0 c) iCol
          (show (stateAfter t0 c).fields.length ≤ iCol by
            simp only [stateAfter]; omega),
        getFieldValue_oob t0 iCol (by omega)]

/-- A small well-formed selected row for the C9 witness: int32 NOT NULL
value 42, then a nullable present string "AB" (exercising the saved-byte
null-termination path), with the 4 guard zero bytes. -/
def c9Tbl : Tbl :=
  { emptyTbl with
    fields := c4Fields, nullableSizeBytes := 1, curRow := 0, iterPos := 1,
    buffer := [0, 42, 0, 0, 0, 2, 65, 66, 0, 0, 0, 0], rowBlobLength := 8 }

/-- Witness for C9 on `c9Tbl` with call sequence `[1, 0]` (backward access
forcing a rewind plus a saved-byte restore) and query column 1. -/
theorem getfieldvalue_order_independent_witness :
    Fresh c9Tbl ∧ WellFormed c9Tbl ∧
      (getFieldValue (applyCalls c9Tbl [1, 0]) 1).1 =
        (getFieldValue c9Tbl 1).1 :=
  ⟨by decide, by decide,
    getfieldvalue_order_independent c9Tbl (by decide) (by decide) [1, 0] 1⟩

end FileGDB
